import Mathlib

/-!
Verification development for the i18n-sync tool (src/i18n-sync.ts).

The file shallowly embeds the data model and the pure logic of the tool:
the JSON tree type, the tree diff addMissingKeys, the batched translation
pipeline translateAndApply together with its merge and write loops, the
retry wrapper withRetries, the translation client callOpenAiTranslateBatch
(with the network abstracted as an attempt oracle), and the orchestrator
main (with the filesystem abstracted as already-parsed inputs). Theorems
about these definitions settle the frozen claims about the program.
-/

/-- JSON values as manipulated by the tool (the TypeScript type JsonValue).
Objects are insertion-ordered entry lists, which is how JS objects behave
for the non-index string keys that catalogs use. -/
inductive JsonValue where
  | str : String → JsonValue
  | num : Int → JsonValue
  | bool : Bool → JsonValue
  | null : JsonValue
  | arr : List JsonValue → JsonValue
  | obj : List (String × JsonValue) → JsonValue
deriving Repr, Inhabited

/-- Entry list of a JS object (the TypeScript type JsonObject). -/
abbrev JsonObject := List (String × JsonValue)

/-- The TypeScript type TranslationKey: one missing leaf, identified by its
path of keys and carrying the source text to translate. -/
structure TranslationKey where
  key : List String
  value : String
deriving Repr, DecidableEq

/-- Reading target[key] on a JS object modeled as an ordered entry list. -/
def lookupKey : JsonObject → String → Option JsonValue
  | [], _ => none
  | (k, v) :: rest, key => if k = key then some v else lookupKey rest key

/-- Writing target[key] = v on a JS object: replaces the binding in place
when the key is present, otherwise appends it at the end (JS semantics). -/
def setKey : JsonObject → String → JsonValue → JsonObject
  | [], key, v => [(key, v)]
  | (k, w) :: rest, key, v =>
    if k = key then (key, v) :: rest else (k, w) :: setKey rest key v

/-- The TypeScript helper isTypeObject: a value is a plain object exactly
when it is neither an array nor null nor a scalar. -/
def isTypeObject : JsonValue → Bool
  | .obj _ => true
  | _ => false

/-- Navigating a chain of object keys, the JSON-observable reading of
nested member access. A non-object (including an array, whose entries are
never addressed by catalog key paths) stops the navigation. -/
def JsonValue.getPath : JsonValue → List String → Option JsonValue
  | v, [] => some v
  | .obj l, k :: rest =>
    match lookupKey l k with
    | some w => w.getPath rest
    | none => none
  | _, _ :: _ => none

/-- Whether the target already holds a nonempty string at a path, which is
the condition under which addMissingKeys leaves the leaf untouched. -/
def filledAt (target : JsonObject) (p : List String) : Bool :=
  match JsonValue.getPath (.obj target) p with
  | some (.str t) => decide (0 < t.length)
  | _ => false

mutual

/-- Well-formedness of a JSON value: every object along the tree has
duplicate-free keys, as is the case for any value produced by JSON.parse. -/
def JsonValue.wfB : JsonValue → Bool
  | .obj l => wfEntries l
  | _ => true

/-- Well-formedness of an entry list: keys are duplicate-free at this
level and every value is well-formed. -/
def wfEntries : JsonObject → Bool
  | [] => true
  | (k, v) :: rest =>
    !(rest.any (fun p => p.1 = k)) && v.wfB && wfEntries rest

end

/-- The object the diff recurses into under a source object key: the
existing target object at that key when there is one, and otherwise the
fresh empty object that the line target[key] = {} installs (any non-object
value, arrays included, is discarded by isTypeObject and replaced). -/
def innerObject (target : JsonObject) (key : String) : JsonObject :=
  match lookupKey target key with
  | some (.obj o) => o
  | _ => []

/-- The tree diff of src/i18n-sync.ts (function addMissingKeys): walks the
source entries in order against the target object, coercing the target to
an object under source objects, inserting an empty-string placeholder at
every missing string leaf, and returning the mutated target together with
the discovered tasks in traversal order. -/
def addMissingKeys : JsonObject → JsonObject → List String → JsonObject × List TranslationKey
  | [], target, _ => (target, [])
  | (key, sourceValue) :: rest, target, keyPath =>
    match sourceValue with
    | .obj so =>
      let r1 := addMissingKeys so (innerObject target key) (keyPath ++ [key])
      let r2 := addMissingKeys rest (setKey target key (.obj r1.1)) keyPath
      (r2.1, r1.2 ++ r2.2)
    | .str s =>
      match lookupKey target key with
      | some (.str t) =>
        if 0 < t.length then
          addMissingKeys rest target keyPath
        else
          let r := addMissingKeys rest (setKey target key (.str "")) keyPath
          (r.1, ⟨keyPath ++ [key], s⟩ :: r.2)
      | _ =>
        let r := addMissingKeys rest (setKey target key (.str "")) keyPath
        (r.1, ⟨keyPath ++ [key], s⟩ :: r.2)
    | _ => addMissingKeys rest target keyPath


/-! ### The translation pipeline -/

/-- Outcome type of a call to the translation client on a list of texts. -/
abbrev Translator := List String → Except Unit (List String)

/-- Whitespace in the sense of the JS String.prototype.trim call on line
129, restricted to the ASCII whitespace characters that catalogs contain. -/
def isJsWhitespace (c : Char) : Bool :=
  c = ' ' || c = '\t' || c = '\n' || c = '\r'

/-- The JS call value.trim(): strips leading and trailing whitespace. -/
def jsTrim (s : String) : String :=
  ⟨((s.data.dropWhile isJsWhitespace).reverse.dropWhile isJsWhitespace).reverse⟩

/-- The predicate of the filter batch.filter on line 129: the source text
trims to something nonempty. -/
def isTranslatable (k : TranslationKey) : Bool :=
  decide (0 < (jsTrim k.value).length)

/-- The ordered list of texts sent to the provider for one batch. -/
def toTranslateTexts (batch : List TranslationKey) : List String :=
  (batch.filter isTranslatable).map (fun k => k.value)

/-- One write of the apply loop of translateAndApply (lines 174 to 189):
walks the path, replacing the current value by a fresh plain object when
it is not an object, and sets the final key. A JS array passes the typeof
object test, so the loop enters it instead of replacing it; property
writes on an array are invisible to JSON serialization, hence the
JSON-observable effect of a write that meets an array is to leave the
tree unchanged, which is how it is modeled here (writes on numeric index
keys of arrays cannot arise from diff-produced tasks, whose path prefixes
are always plain objects). The empty path never names a leaf and is
modeled as a no-op. -/
def writePath (entries : JsonObject) : List String → String → JsonObject
  | [], _ => entries
  | [k], v => setKey entries k (.str v)
  | k :: rest, v =>
    match lookupKey entries k with
    | some (.obj inner) => setKey entries k (.obj (writePath inner rest v))
    | some (.arr _) => entries
    | _ => setKey entries k (.obj (writePath [] rest v))

/-- A path is clear for writing when the navigated spine meets no array;
the write loop then lands the value exactly at the path. The empty path
never names a leaf and is not clear. -/
def pathClear (t : JsonObject) : List String → Bool
  | [] => false
  | [_] => true
  | k :: rest =>
    match lookupKey t k with
    | some (.obj o) => pathClear o rest
    | some (.arr _) => false
    | _ => true

/-- Two paths diverge when they differ at some position inside the common
length; neither is then a prefix of the other. -/
def divergeB : List String → List String → Bool
  | [], _ => false
  | _ :: _, [] => false
  | a :: a2, b :: b2 => (a != b) || divergeB a2 b2

/-- The merge loop after a successful bulk call (lines 139 to 145): walks
the batch, consuming one provider output per translatable task and
producing the empty string for the blank ones. The headD default models
the out-of-range index translated[i], which cannot occur because the
client only returns lists of the requested length. -/
def zipBulk : List TranslationKey → List String → List String
  | [], _ => []
  | item :: rest, outs =>
    if isTranslatable item then
      outs.headD "" :: zipBulk rest outs.tail
    else
      "" :: zipBulk rest outs

/-- The per-item degradation loop (lines 147 to 166): a blank task
resolves to the empty string, a successful single-text call to its single
returned string (the destructuring const [key], modeled by headD since the
client only returns singletons here), and a failed call falls back to the
original source text. -/
def perItemVals (tr : Translator) (batch : List TranslationKey) : List String :=
  batch.map (fun item =>
    if isTranslatable item then
      match tr [item.value] with
      | .ok out => out.headD ""
      | .error _ => item.value
    else "")

/-- The translatedKeys array computed for one batch by translateAndApply:
bulk call first, per-item degradation on bulk failure, and all empty
strings when nothing in the batch is translatable. -/
def batchVals (tr : Translator) (batch : List TranslationKey) : List String :=
  if 0 < (batch.filter isTranslatable).length then
    match tr (toTranslateTexts batch) with
    | .ok translated => zipBulk batch translated
    | .error _ => perItemVals tr batch
  else
    List.replicate batch.length ""

/-- The write-back loop of translateAndApply (lines 174 to 189): writes
the i-th resolved value at the i-th task path and increments totalApplied
once per task, fallbacks included. -/
def applyBatch (target : JsonObject) :
    List TranslationKey → List String → JsonObject × Nat
  | [], _ => (target, 0)
  | tk :: rest, vals =>
    let r := applyBatch (writePath target tk.key (vals.headD "")) rest vals.tail
    (r.1, r.2 + 1)

/-- One iteration of the batch loop of translateAndApply. -/
def processBatch (tr : Translator) (target : JsonObject)
    (batch : List TranslationKey) : JsonObject × Nat :=
  applyBatch target batch (batchVals tr batch)

/-- The slicing keys.slice(i, i + BATCH_SIZE) with BATCH_SIZE = 20. -/
def chunk20 : List TranslationKey → List (List TranslationKey)
  | [] => []
  | a :: t => ((a :: t).take 20) :: chunk20 ((a :: t).drop 20)
termination_by l => l.length
decreasing_by
  simp [List.length_drop]
  omega

/-- The batch loop of translateAndApply over the list of slices, threading
the mutated target and accumulating totalApplied. -/
def applyBatches (tr : Translator) :
    List (List TranslationKey) → JsonObject → JsonObject × Nat
  | [], target => (target, 0)
  | batch :: rest, target =>
    let r := processBatch tr target batch
    let r2 := applyBatches tr rest r.1
    (r2.1, r.2 + r2.2)

/-- The function translateAndApply of src/i18n-sync.ts, with the provider
abstracted as the oracle tr giving the outcome of callOpenAiTranslateBatch
on a list of texts: processes the tasks in slices of 20 and returns the
mutated target plus totalApplied. -/
def translateAndApply (tr : Translator) (keys : List TranslationKey)
    (targetJson : JsonObject) : JsonObject × Nat :=
  applyBatches tr (chunk20 keys) targetJson

/-! ### The retry wrapper and the translation client -/

/-- The loop of withRetries at attempt i with rem further attempts
allowed, where op i is the outcome of attempt number i: a success returns
at once, and the failure of the last attempt is re-raised. -/
def retryLoop {e a : Type} (op : Nat → Except e a) : Nat → Nat → Except e a
  | i, 0 => op i
  | i, rem + 1 =>
    match op i with
    | .ok v => .ok v
    | .error _ => retryLoop op (i + 1) rem

/-- The function withRetries of src/i18n-sync.ts: attempts = 3, numbered
1 to 3. -/
def withRetries {e a : Type} (op : Nat → Except e a) : Except e a :=
  retryLoop op 1 2

/-- Instrumented retryLoop, returning also the number of invocations of
the operation and the list of backoff delays awaited in milliseconds
(setTimeout of 400 * i after failing attempt i, skipped after the last
attempt). -/
def retryLoopTrace {e a : Type} (op : Nat → Except e a) :
    Nat → Nat → Except e a × Nat × List Nat
  | i, 0 => (op i, 1, [])
  | i, rem + 1 =>
    match op i with
    | .ok v => (.ok v, 1, [])
    | .error _ =>
      let t := retryLoopTrace op (i + 1) rem
      (t.1, t.2.1 + 1, 400 * i :: t.2.2)

/-- Instrumented withRetries: outcome, invocation count, delay list. -/
def withRetriesTrace {e a : Type} (op : Nat → Except e a) :
    Except e a × Nat × List Nat :=
  retryLoopTrace op 1 2

/-- Outcome of one attempt of the operation passed to withRetries inside
callOpenAiTranslateBatch (the fetch, the result.ok check and
result.json()): an error models a transport failure or timeout of that
attempt; a success carries the parsed payload of that response body, with
some ts when choices[0].message.content yields (directly or through the
brace-extraction fallback) an object whose translations field is a string
array, and none otherwise. -/
abbrev AttemptOracle := Nat → Except Unit (Option (List String))

/-- The validation performed after the retry wrapper has returned a
response (lines 269 to 289): a missing or malformed translations array,
or one whose length differs from the input length, raises Invalid
translations payload without any retry. -/
def payloadCheck (keys : List String) :
    Option (List String) → Except Unit (List String)
  | some ts => if ts.length = keys.length then .ok ts else .error ()
  | none => .error ()

/-- The function callOpenAiTranslateBatch of src/i18n-sync.ts over the
attempt oracle: the transport part runs under withRetries and the payload
validation runs after it, outside the retry wrapper. -/
def callOpenAiTranslateBatch (o : AttemptOracle) (keys : List String) :
    Except Unit (List String) :=
  match withRetries o with
  | .error e => .error e
  | .ok payload => payloadCheck keys payload

/-! ### The orchestrator -/

/-- Exit codes of the process exit contract. -/
inductive ExitCode where
  | zero
  | one
  | two
deriving Repr, DecidableEq

/-- Outcome of processing one parsable locale catalog in the main loop. -/
structure CatalogOutcome where
  added : Nat
  translated : Nat
  persisted : Bool
  finalTree : JsonObject
deriving Repr

/-- The per-catalog body of the main loop (lines 39 to 81): diff, then
translation unless it is off, nothing was added, or the API key is the
empty string (OPENAI_API_KEY unset is read as empty through the nullish
fallback on line 12), then persistence exactly when anything changed. -/
def processCatalog (tr : Translator) (shouldTranslate : Bool)
    (apiKey : String) (sourceJson targetJson : JsonObject) : CatalogOutcome :=
  let r := addMissingKeys sourceJson targetJson []
  let doTranslate := shouldTranslate && decide (0 < r.2.length) && (apiKey != "")
  let applied := if doTranslate then translateAndApply tr r.2 r.1 else (r.1, 0)
  { added := r.2.length
    translated := applied.2
    persisted := decide (0 < r.2.length) || decide (0 < applied.2)
    finalTree := applied.1 }

/-- The number of leaves added across all parsable locale catalogs. -/
def totalAddedOf (sourceJson : JsonObject)
    (locales : List (Option JsonObject)) : Nat :=
  (locales.map (fun loc =>
    match loc with
    | some t => (addMissingKeys sourceJson t []).2.length
    | none => 0)).sum

/-- The function main of src/i18n-sync.ts over parsed inputs: dirFound
tells whether findTargetFolder located the i18n directory (a miss throws
before the loop), sourceJson is the parsed source catalog (none when
reading or parsing it throws, which also reaches the process-level catch
before the loop), and each locale entry is one parsed target catalog
(none when reading or parsing it throws, which the loop catches and
skips). File writes always succeed in this model. Returns the exit code
passed to process.exit and the per-catalog outcomes. -/
def mainModel (tr : Translator) (dirFound : Bool)
    (sourceJson : Option JsonObject) (locales : List (Option JsonObject))
    (shouldTranslate : Bool) (apiKey : String) :
    ExitCode × List (Option CatalogOutcome) :=
  if !dirFound then (.one, [])
  else
    match sourceJson with
    | none => (.one, [])
    | some src =>
      let outs := locales.map (fun loc =>
        loc.map (processCatalog tr shouldTranslate apiKey src))
      let totalAdded : Nat := (outs.map (fun o =>
        match o with
        | some c => c.added
        | none => 0)).sum
      (if totalAdded = 0 then .two else .zero, outs)

/-- A provider oracle whose calls always succeed, with outputs of the
requested length that are all nonempty. -/
def goodProvider (tr : Translator) : Prop :=
  ∀ l, ∃ outs, tr l = .ok outs ∧ outs.length = l.length ∧ ∀ s ∈ outs, s ≠ ""


/-! ### Concrete instances used in witnesses and counterexamples -/

/-- Source values that the differ never traverses and never turns into
tasks: numbers, booleans, null and arrays. -/
def isNonTraversable : JsonValue → Bool
  | .num _ => true
  | .bool _ => true
  | .null => true
  | .arr _ => true
  | _ => false

/-- A provider oracle whose every call fails. -/
def trFail : Translator := fun _ => .error ()

/-- A provider oracle that appends an exclamation mark to every text. -/
def trBang : Translator := fun l => .ok (l.map (fun s => s ++ "!"))

/-- A provider oracle answering every text with the fixed string X, hence
always with the requested output length and nonempty outputs. -/
def trX : Translator := fun l => .ok (l.map (fun _ => "X"))

/-- An attempt oracle whose first attempt fails at the transport level and
whose later attempts return a valid singleton payload. -/
def oTransFail : AttemptOracle := fun i =>
  if i = 1 then .error () else .ok (some ["x"])

/-- An attempt oracle whose first attempt succeeds at the transport level
with a malformed payload and whose later attempts return a valid
singleton payload. -/
def oMalformed : AttemptOracle := fun i =>
  if i = 1 then .ok none else .ok (some ["x"])

/-- A numeric operation failing on its first attempt only. -/
def opFailOnce : Nat → Except Unit Nat := fun i =>
  if i = 1 then .error () else .ok 5

/-- The source catalog of the worked example in the spec. -/
def exSource : JsonObject :=
  [("a", .obj [("b", .str "Hello")]), ("c", .str "World"), ("d", .num 5)]

/-! ### Basic lemmas about entry lists and path navigation -/

theorem lookupKey_setKey_self (l : JsonObject) (k : String) (v : JsonValue) :
    lookupKey (setKey l k v) k = some v := by
  induction l with
  | nil => simp [setKey, lookupKey]
  | cons p rest ih =>
    obtain ⟨k', w⟩ := p
    by_cases h : k' = k
    · simp [setKey, h, lookupKey]
    · simp [setKey, h, lookupKey, ih]

theorem lookupKey_setKey_ne (l : JsonObject) (k k' : String) (v : JsonValue)
    (h : k' ≠ k) : lookupKey (setKey l k v) k' = lookupKey l k' := by
  induction l with
  | nil =>
    simp only [setKey, lookupKey]
    rw [if_neg (fun hh => h hh.symm)]
  | cons p rest ih =>
    obtain ⟨k'', w⟩ := p
    by_cases hk : k'' = k
    · subst hk
      simp only [setKey, if_pos rfl, lookupKey]
      rw [if_neg (fun hh => h hh.symm), if_neg (fun hh => h hh.symm)]
    · simp only [setKey, if_neg hk, lookupKey]
      by_cases hk' : k'' = k'
      · simp [hk']
      · simp [hk', ih]

@[simp] theorem getPath_nil (v : JsonValue) : v.getPath [] = some v := by
  cases v <;> rfl

@[simp] theorem getPath_str (s : String) (k : String) (p : List String) :
    (JsonValue.str s).getPath (k :: p) = none := rfl

@[simp] theorem getPath_num (n : Int) (k : String) (p : List String) :
    (JsonValue.num n).getPath (k :: p) = none := rfl

@[simp] theorem getPath_boolv (b : Bool) (k : String) (p : List String) :
    (JsonValue.bool b).getPath (k :: p) = none := rfl

@[simp] theorem getPath_nullv (k : String) (p : List String) :
    (JsonValue.null).getPath (k :: p) = none := rfl

@[simp] theorem getPath_arr (l : List JsonValue) (k : String) (p : List String) :
    (JsonValue.arr l).getPath (k :: p) = none := rfl

theorem getPath_cons (l : JsonObject) (k : String) (p : List String) :
    JsonValue.getPath (.obj l) (k :: p) =
      match lookupKey l k with
      | some w => w.getPath p
      | none => none := rfl

theorem getPath_cons_nonobj (v : JsonValue)
    (h : ∀ l, v = JsonValue.obj l → False) (k : String) (p : List String) :
    v.getPath (k :: p) = none := by
  cases v with
  | obj l => exact absurd rfl (h l)
  | _ => rfl

theorem getPath_obj_nil_ne (p : List String) (hp : p ≠ []) :
    (JsonValue.obj []).getPath p = none := by
  cases p with
  | nil => exact absurd rfl hp
  | cons k q => rfl

theorem getPath_single (l : JsonObject) (k : String) :
    JsonValue.getPath (.obj l) [k] = lookupKey l k := by
  cases h : lookupKey l k <;> simp [getPath_cons, h]

theorem getPath_setKey_ne (T : JsonObject) (key k : String) (w : JsonValue)
    (p : List String) (h : k ≠ key) :
    JsonValue.getPath (.obj (setKey T key w)) (k :: p) =
      JsonValue.getPath (.obj T) (k :: p) := by
  rw [getPath_cons, getPath_cons, lookupKey_setKey_ne T key k w h]

theorem filledAt_setKey_ne (T : JsonObject) (key k : String) (w : JsonValue)
    (p : List String) (h : k ≠ key) :
    filledAt (setKey T key w) (k :: p) = filledAt T (k :: p) := by
  rw [filledAt, filledAt, getPath_setKey_ne T key k w p h]

theorem filledAt_inner (T : JsonObject) (key : String) (q : List String)
    (hq : q ≠ []) :
    filledAt T (key :: q) = filledAt (innerObject T key) q := by
  unfold innerObject
  obtain ⟨a, q', rfl⟩ : ∃ a q', q = a :: q' := by
    cases q with
    | nil => exact absurd rfl hq
    | cons a b => exact ⟨a, b, rfl⟩
  cases h : lookupKey T key with
  | none => simp [filledAt, getPath_cons, h, lookupKey]
  | some v =>
    cases v with
    | obj o => simp [filledAt, getPath_cons, h]
    | str s => simp [filledAt, getPath_cons, h, lookupKey]
    | num n => simp [filledAt, getPath_cons, h, lookupKey]
    | bool b => simp [filledAt, getPath_cons, h, lookupKey]
    | null => simp [filledAt, getPath_cons, h, lookupKey]
    | arr l2 => simp [filledAt, getPath_cons, h, lookupKey]

theorem lookupKey_eq_none_of_absent (l : JsonObject) (k : String)
    (h : l.any (fun p => p.1 = k) = false) : lookupKey l k = none := by
  induction l with
  | nil => rfl
  | cons p rest ih =>
    obtain ⟨k', w⟩ := p
    simp only [List.any_cons, Bool.or_eq_false_iff, decide_eq_false_iff_not] at h
    simp only [lookupKey, if_neg h.1]
    exact ih h.2

theorem lookupKey_cons_self (k : String) (v : JsonValue) (rest : JsonObject) :
    lookupKey ((k, v) :: rest) k = some v := by
  simp [lookupKey]

theorem lookupKey_cons_ne (k0 : String) (v : JsonValue) (rest : JsonObject)
    (key : String) (h : k0 ≠ key) :
    lookupKey ((k0, v) :: rest) key = lookupKey rest key := by
  simp [lookupKey, h]

theorem getPath_obj_cons_self (key : String) (sv : JsonValue)
    (rest : JsonObject) (q : List String) :
    JsonValue.getPath (.obj ((key, sv) :: rest)) (key :: q) = sv.getPath q := by
  rw [getPath_cons, lookupKey_cons_self]

theorem getPath_obj_cons_ne (key : String) (sv : JsonValue) (rest : JsonObject)
    (k : String) (q : List String) (h : k ≠ key) :
    JsonValue.getPath (.obj ((key, sv) :: rest)) (k :: q) =
      JsonValue.getPath (.obj rest) (k :: q) := by
  rw [getPath_cons, getPath_cons, lookupKey_cons_ne key sv rest k (Ne.symm h)]

theorem filledAt_single (T : JsonObject) (key : String) :
    filledAt T [key] =
      match lookupKey T key with
      | some (.str t) => decide (0 < t.length)
      | _ => false := by
  unfold filledAt
  rw [getPath_single]

theorem wf_cons (k : String) (v : JsonValue) (rest : JsonObject)
    (h : wfEntries ((k, v) :: rest) = true) :
    rest.any (fun p => p.1 = k) = false ∧ v.wfB = true ∧ wfEntries rest = true := by
  simp only [wfEntries, Bool.and_eq_true, Bool.not_eq_true'] at h
  exact ⟨h.1.1, h.1.2, h.2⟩

/-! ### Characterization of the tasks produced by the diff -/

/-- Shared step for a head entry that contributes no task: either its
source value can never be a string leaf, or the target is already filled
at its key. The head key then adds no path satisfying the missing rule. -/
theorem skip_head_iff (key : String) (sv : JsonValue) (rest target : JsonObject)
    (kp : List String)
    (hlrest : lookupKey rest key = none)
    (hblock : ∀ q2 t, sv.getPath q2 = some (.str t) →
        q2 = [] ∧ filledAt target [key] = true)
    (tasks : List TranslationKey)
    (ih : ∀ p s, ((⟨p, s⟩ : TranslationKey) ∈ tasks ↔
        ∃ q, p = kp ++ q ∧ JsonValue.getPath (.obj rest) q = some (.str s) ∧
          filledAt target q = false))
    (p : List String) (s : String) :
    ((⟨p, s⟩ : TranslationKey) ∈ tasks ↔
      ∃ q, p = kp ++ q ∧
        JsonValue.getPath (.obj ((key, sv) :: rest)) q = some (.str s) ∧
        filledAt target q = false) := by
  rw [ih p s]
  constructor
  · rintro ⟨q, hp, hsrc, hfill⟩
    obtain ⟨k, q2, rfl⟩ : ∃ k q2, q = k :: q2 := by
      cases q with
      | nil => simp at hsrc
      | cons a b => exact ⟨a, b, rfl⟩
    have hk : k ≠ key := by
      rintro rfl
      simp [getPath_cons, hlrest] at hsrc
    exact ⟨k :: q2, hp, by rwa [getPath_obj_cons_ne key sv rest k q2 hk], hfill⟩
  · rintro ⟨q, hp, hsrc, hfill⟩
    obtain ⟨k, q2, rfl⟩ : ∃ k q2, q = k :: q2 := by
      cases q with
      | nil => simp at hsrc
      | cons a b => exact ⟨a, b, rfl⟩
    by_cases hk : k = key
    · subst hk
      rw [getPath_obj_cons_self] at hsrc
      obtain ⟨hq2, hfilled⟩ := hblock q2 s hsrc
      subst hq2
      rw [hfilled] at hfill
      exact Bool.noConfusion hfill
    · exact ⟨k :: q2, hp,
        by rwa [getPath_obj_cons_ne key sv rest k q2 hk] at hsrc, hfill⟩

/-- Shared step for a head string entry that is missing in the target: the
diff pushes the task for the head key and recurses on the remaining
entries against the target carrying the fresh placeholder. -/
theorem write_head_iff (key : String) (s0 : String) (rest target : JsonObject)
    (kp : List String)
    (hlrest : lookupKey rest key = none)
    (hfillkey : filledAt target [key] = false)
    (tasks : List TranslationKey)
    (ih : ∀ p s, ((⟨p, s⟩ : TranslationKey) ∈ tasks ↔
        ∃ q, p = kp ++ q ∧ JsonValue.getPath (.obj rest) q = some (.str s) ∧
          filledAt (setKey target key (.str "")) q = false))
    (p : List String) (s : String) :
    ((⟨p, s⟩ : TranslationKey) ∈
        (⟨kp ++ [key], s0⟩ : TranslationKey) :: tasks ↔
      ∃ q, p = kp ++ q ∧
        JsonValue.getPath (.obj ((key, .str s0) :: rest)) q = some (.str s) ∧
        filledAt target q = false) := by
  rw [List.mem_cons]
  constructor
  · rintro (hhead | htail)
    · rw [TranslationKey.mk.injEq] at hhead
      refine ⟨[key], hhead.1, ?_, hfillkey⟩
      rw [getPath_obj_cons_self, hhead.2]
      rfl
    · obtain ⟨q, hp, hsrc, hfill⟩ := (ih p s).mp htail
      obtain ⟨k, q2, rfl⟩ : ∃ k q2, q = k :: q2 := by
        cases q with
        | nil => simp at hsrc
        | cons a b => exact ⟨a, b, rfl⟩
      have hk : k ≠ key := by
        rintro rfl
        simp [getPath_cons, hlrest] at hsrc
      refine ⟨k :: q2, hp, ?_, ?_⟩
      · rwa [getPath_obj_cons_ne key _ rest k q2 hk]
      · rwa [filledAt_setKey_ne target key k (.str "") q2 hk] at hfill
  · rintro ⟨q, hp, hsrc, hfill⟩
    obtain ⟨k, q2, rfl⟩ : ∃ k q2, q = k :: q2 := by
      cases q with
      | nil => simp at hsrc
      | cons a b => exact ⟨a, b, rfl⟩
    by_cases hk : k = key
    · subst hk
      rw [getPath_obj_cons_self] at hsrc
      cases q2 with
      | nil =>
        left
        rw [TranslationKey.mk.injEq]
        have hs : s0 = s := by simpa using hsrc
        exact ⟨hp, hs.symm⟩
      | cons a b => simp at hsrc
    · right
      refine (ih p s).mpr ⟨k :: q2, hp, ?_, ?_⟩
      · rwa [getPath_obj_cons_ne key _ rest k q2 hk] at hsrc
      · rwa [← filledAt_setKey_ne target key k (.str "") q2 hk] at hfill

/-- Full characterization of the task list: a task for path p with source
text s is produced exactly when the source holds the string s at p and the
target is absent, non-string or empty-string at p. -/
theorem mem_addMissingKeys_iff :
    ∀ (S T : JsonObject) (kp : List String), wfEntries S = true →
      ∀ (p : List String) (s : String),
        ((⟨p, s⟩ : TranslationKey) ∈ (addMissingKeys S T kp).2 ↔
          ∃ q, p = kp ++ q ∧ JsonValue.getPath (.obj S) q = some (.str s) ∧
            filledAt T q = false) := by
  intro S T kp
  induction S, T, kp using addMissingKeys.induct with
  | case1 target kp =>
    intro _ p s
    constructor
    · intro h
      simp [addMissingKeys] at h
    · rintro ⟨q, _, hsrc, _⟩
      cases q with
      | nil => simp at hsrc
      | cons a b => simp [getPath_cons, lookupKey] at hsrc
  | case2 key rest target kp so r1 ihso ihrest =>
    intro hwf p s
    obtain ⟨habs, hwfso, hwfrest⟩ := wf_cons _ _ _ hwf
    simp only [JsonValue.wfB] at hwfso
    have hlrest : lookupKey rest key = none := lookupKey_eq_none_of_absent _ _ habs
    simp only [addMissingKeys]
    rw [List.mem_append]
    constructor
    · rintro (h1 | h2)
      · obtain ⟨q2, hp, hsrc, hfill⟩ := (ihso hwfso p s).mp h1
        have hq2 : q2 ≠ [] := by
          rintro rfl
          simp at hsrc
        refine ⟨key :: q2, ?_, ?_, ?_⟩
        · simpa [List.append_assoc] using hp
        · rw [getPath_obj_cons_self]
          exact hsrc
        · rw [filledAt_inner target key q2 hq2]
          exact hfill
      · obtain ⟨q, hp, hsrc, hfill⟩ := (ihrest hwfrest p s).mp h2
        obtain ⟨k, q2, rfl⟩ : ∃ k q2, q = k :: q2 := by
          cases q with
          | nil => simp at hsrc
          | cons a b => exact ⟨a, b, rfl⟩
        have hk : k ≠ key := by
          rintro rfl
          simp [getPath_cons, hlrest] at hsrc
        refine ⟨k :: q2, hp, ?_, ?_⟩
        · rwa [getPath_obj_cons_ne key _ rest k q2 hk]
        · rwa [filledAt_setKey_ne target key k _ q2 hk] at hfill
    · rintro ⟨q, hp, hsrc, hfill⟩
      obtain ⟨k, q2, rfl⟩ : ∃ k q2, q = k :: q2 := by
        cases q with
        | nil => simp at hsrc
        | cons a b => exact ⟨a, b, rfl⟩
      by_cases hk : k = key
      · subst hk
        rw [getPath_obj_cons_self] at hsrc
        have hq2 : q2 ≠ [] := by
          rintro rfl
          simp at hsrc
        left
        refine (ihso hwfso p s).mpr ⟨q2, ?_, hsrc, ?_⟩
        · simpa [List.append_assoc] using hp
        · rw [← filledAt_inner target k q2 hq2]
          exact hfill
      · right
        refine (ihrest hwfrest p s).mpr ⟨k :: q2, hp, ?_, ?_⟩
        · rwa [getPath_obj_cons_ne key _ rest k q2 hk] at hsrc
        · rwa [← filledAt_setKey_ne target key k (.obj r1.1) q2 hk] at hfill
  | case3 key rest target kp s0 t hlook hpos ih =>
    intro hwf p s
    obtain ⟨habs, _, hwfrest⟩ := wf_cons _ _ _ hwf
    have hlrest := lookupKey_eq_none_of_absent _ _ habs
    simp only [addMissingKeys, hlook, if_pos hpos]
    refine skip_head_iff key (.str s0) rest target kp hlrest ?_ _ (ih hwfrest) p s
    intro q2 t2 hsrc
    cases q2 with
    | nil =>
      refine ⟨rfl, ?_⟩
      rw [filledAt_single, hlook]
      simpa using hpos
    | cons a b => simp at hsrc
  | case4 key rest target kp s0 t hlook hnpos ih =>
    intro hwf p s
    obtain ⟨habs, _, hwfrest⟩ := wf_cons _ _ _ hwf
    have hlrest := lookupKey_eq_none_of_absent _ _ habs
    have hfillkey : filledAt target [key] = false := by
      rw [filledAt_single, hlook]
      simpa using hnpos
    simp only [addMissingKeys, hlook, if_neg hnpos]
    exact write_head_iff key s0 rest target kp hlrest hfillkey _ (ih hwfrest) p s
  | case5 key rest target kp s0 hnostr ih =>
    intro hwf p s
    obtain ⟨habs, _, hwfrest⟩ := wf_cons _ _ _ hwf
    have hlrest := lookupKey_eq_none_of_absent _ _ habs
    have hfillkey : filledAt target [key] = false := by
      rw [filledAt_single]
      cases hl : lookupKey target key with
      | none => rfl
      | some v =>
        cases v with
        | str t => exact absurd hl (hnostr t)
        | obj o => rfl
        | num n => rfl
        | bool b => rfl
        | null => rfl
        | arr l => rfl
    have heq : addMissingKeys ((key, JsonValue.str s0) :: rest) target kp =
        ((addMissingKeys rest (setKey target key (.str "")) kp).1,
          (⟨kp ++ [key], s0⟩ : TranslationKey) ::
            (addMissingKeys rest (setKey target key (.str "")) kp).2) := by
      cases hl : lookupKey target key with
      | none => simp [addMissingKeys, hl]
      | some v =>
        cases v with
        | str t => exact absurd hl (hnostr t)
        | obj o => simp [addMissingKeys, hl]
        | num n => simp [addMissingKeys, hl]
        | bool b => simp [addMissingKeys, hl]
        | null => simp [addMissingKeys, hl]
        | arr l => simp [addMissingKeys, hl]
    rw [heq]
    exact write_head_iff key s0 rest target kp hlrest hfillkey _ (ih hwfrest) p s
  | case6 key sv rest target kp hno hns ih =>
    intro hwf p s
    obtain ⟨habs, _, hwfrest⟩ := wf_cons _ _ _ hwf
    have hlrest := lookupKey_eq_none_of_absent _ _ habs
    have hblock : ∀ q2 t2, sv.getPath q2 = some (.str t2) →
        q2 = [] ∧ filledAt target [key] = true := by
      intro q2 t2 hsrc
      cases q2 with
      | nil =>
        rw [getPath_nil] at hsrc
        obtain rfl := Option.some.inj hsrc
        exact absurd rfl (hns t2)
      | cons a b =>
        rw [getPath_cons_nonobj sv hno a b] at hsrc
        exact Option.noConfusion hsrc
    cases sv with
    | obj so => exact absurd rfl (hno so)
    | str s1 => exact absurd rfl (hns s1)
    | num n =>
      simp only [addMissingKeys]
      exact skip_head_iff key (.num n) rest target kp hlrest hblock _ (ih hwfrest) p s
    | bool b =>
      simp only [addMissingKeys]
      exact skip_head_iff key (.bool b) rest target kp hlrest hblock _ (ih hwfrest) p s
    | null =>
      simp only [addMissingKeys]
      exact skip_head_iff key .null rest target kp hlrest hblock _ (ih hwfrest) p s
    | arr l =>
      simp only [addMissingKeys]
      exact skip_head_iff key (.arr l) rest target kp hlrest hblock _ (ih hwfrest) p s

/-! ### Lemmas about the write loop -/

theorem writePath_cons2 (t : JsonObject) (k a : String) (b : List String)
    (v : String) :
    writePath t (k :: a :: b) v =
      match lookupKey t k with
      | some (.obj inner) => setKey t k (.obj (writePath inner (a :: b) v))
      | some (.arr _) => t
      | _ => setKey t k (.obj (writePath [] (a :: b) v)) := rfl

theorem pathClear_cons2 (t : JsonObject) (k a : String) (b : List String) :
    pathClear t (k :: a :: b) =
      match lookupKey t k with
      | some (.obj o) => pathClear o (a :: b)
      | some (.arr _) => false
      | _ => true := rfl

theorem pathClear_single (t : JsonObject) (k : String) :
    pathClear t [k] = true := rfl

theorem pathClear_nil_of_ne (p : List String) (hp : p ≠ []) :
    pathClear [] p = true := by
  cases p with
  | nil => exact absurd rfl hp
  | cons k q =>
    cases q with
    | nil => rfl
    | cons a b => simp [pathClear_cons2, lookupKey]

theorem pathClear_setKey_ne (t : JsonObject) (key k : String) (w : JsonValue)
    (p : List String) (h : k ≠ key) :
    pathClear (setKey t key w) (k :: p) = pathClear t (k :: p) := by
  cases p with
  | nil => rfl
  | cons a b => rw [pathClear_cons2, pathClear_cons2, lookupKey_setKey_ne t key k w h]

theorem divergeB_ne_nil_left (p q : List String) (h : divergeB p q = true) :
    p ≠ [] := by
  cases p with
  | nil => simp [divergeB] at h
  | cons a b => simp

theorem divergeB_ne_nil_right (p q : List String) (h : divergeB p q = true) :
    q ≠ [] := by
  cases p with
  | nil => simp [divergeB] at h
  | cons a b =>
    cases q with
    | nil => simp [divergeB] at h
    | cons c d => simp

theorem divergeB_symm (p : List String) :
    ∀ q, divergeB p q = divergeB q p := by
  induction p with
  | nil =>
    intro q
    cases q <;> simp [divergeB]
  | cons a a2 ih =>
    intro q
    cases q with
    | nil => simp [divergeB]
    | cons b b2 =>
      by_cases h : a = b
      · subst h
        simp [divergeB, ih b2]
      · have h1 : (a != b) = true := bne_iff_ne.mpr h
        have h2 : (b != a) = true := bne_iff_ne.mpr (Ne.symm h)
        simp [divergeB, h1, h2]

theorem divergeB_irrefl (p : List String) : divergeB p p = false := by
  induction p with
  | nil => rfl
  | cons a a2 ih => simp [divergeB, ih]

theorem divergeB_nil_right (p : List String) : divergeB p [] = false := by
  cases p <;> rfl

theorem getPath_cons_some (l : JsonObject) (k : String) (w : JsonValue)
    (p : List String) (h : lookupKey l k = some w) :
    JsonValue.getPath (.obj l) (k :: p) = w.getPath p := by
  rw [getPath_cons, h]

theorem getPath_cons_none (l : JsonObject) (k : String) (p : List String)
    (h : lookupKey l k = none) :
    JsonValue.getPath (.obj l) (k :: p) = none := by
  rw [getPath_cons, h]

/-- A clear write lands: after writePath, reading the same path gives the
written string. -/
theorem getPath_writePath_self (p : List String) :
    ∀ (t : JsonObject) (v : String), pathClear t p = true →
      JsonValue.getPath (.obj (writePath t p v)) p = some (.str v) := by
  induction p with
  | nil =>
    intro t v hc
    simp [pathClear] at hc
  | cons k q ih =>
    intro t v hc
    cases q with
    | nil =>
      rw [show writePath t [k] v = setKey t k (.str v) from rfl, getPath_single]
      exact lookupKey_setKey_self t k _
    | cons a b =>
      rw [pathClear_cons2] at hc
      rw [writePath_cons2]
      cases hl : lookupKey t k with
      | none =>
        simp only [hl]
        rw [getPath_cons_some _ _ _ _ (lookupKey_setKey_self t k _)]
        exact ih [] v (pathClear_nil_of_ne _ (by simp))
      | some w =>
        cases w with
        | obj inner =>
          simp only [hl] at hc ⊢
          rw [getPath_cons_some _ _ _ _ (lookupKey_setKey_self t k _)]
          exact ih inner v hc
        | arr l =>
          simp only [hl] at hc
          exact Bool.noConfusion hc
        | str s2 =>
          simp only [hl]
          rw [getPath_cons_some _ _ _ _ (lookupKey_setKey_self t k _)]
          exact ih [] v (pathClear_nil_of_ne _ (by simp))
        | num n =>
          simp only [hl]
          rw [getPath_cons_some _ _ _ _ (lookupKey_setKey_self t k _)]
          exact ih [] v (pathClear_nil_of_ne _ (by simp))
        | bool b2 =>
          simp only [hl]
          rw [getPath_cons_some _ _ _ _ (lookupKey_setKey_self t k _)]
          exact ih [] v (pathClear_nil_of_ne _ (by simp))
        | null =>
          simp only [hl]
          rw [getPath_cons_some _ _ _ _ (lookupKey_setKey_self t k _)]
          exact ih [] v (pathClear_nil_of_ne _ (by simp))

/-- A write cannot change the value read at a diverging path. -/
theorem getPath_writePath_diverge (q : List String) :
    ∀ (t : JsonObject) (p : List String) (v : String), divergeB p q = true →
      JsonValue.getPath (.obj (writePath t q v)) p =
        JsonValue.getPath (.obj t) p := by
  induction q with
  | nil =>
    intro t p v hd
    exact absurd rfl (divergeB_ne_nil_right p [] hd)
  | cons b bs ihq =>
    intro t p v hd
    obtain ⟨a, a2, rfl⟩ : ∃ a a2, p = a :: a2 := by
      cases p with
      | nil => simp [divergeB] at hd
      | cons x y => exact ⟨x, y, rfl⟩
    cases bs with
    | nil =>
      have hab : a ≠ b := by
        rintro rfl
        rw [show divergeB (a :: a2) [a] = (a != a || divergeB a2 []) from rfl] at hd
        simp [divergeB_nil_right] at hd
      rw [show writePath t [b] v = setKey t b (.str v) from rfl]
      exact getPath_setKey_ne t b a (.str v) a2 hab
    | cons c cs =>
      rw [writePath_cons2]
      by_cases hab : a = b
      · subst hab
        have hd2 : divergeB a2 (c :: cs) = true := by
          rw [show divergeB (a :: a2) (a :: c :: cs) =
            (a != a || divergeB a2 (c :: cs)) from rfl] at hd
          simpa using hd
        obtain ⟨x, y, rfl⟩ : ∃ x y, a2 = x :: y := by
          cases a2 with
          | nil => simp [divergeB] at hd2
          | cons x y => exact ⟨x, y, rfl⟩
        cases hl : lookupKey t a with
        | none =>
          simp only [hl]
          rw [getPath_cons_some _ _ _ _ (lookupKey_setKey_self t a _),
            getPath_cons_none _ _ _ hl, ihq [] (x :: y) v hd2,
            getPath_obj_nil_ne _ (by simp)]
        | some w =>
          cases w with
          | obj inner =>
            simp only [hl]
            rw [getPath_cons_some _ _ _ _ (lookupKey_setKey_self t a _),
              getPath_cons_some _ _ _ _ hl, ihq inner (x :: y) v hd2]
          | arr l => simp only [hl]
          | str s2 =>
            simp only [hl]
            rw [getPath_cons_some _ _ _ _ (lookupKey_setKey_self t a _),
              getPath_cons_some _ _ _ _ hl, ihq [] (x :: y) v hd2,
              getPath_obj_nil_ne _ (by simp)]
            simp
          | num n =>
            simp only [hl]
            rw [getPath_cons_some _ _ _ _ (lookupKey_setKey_self t a _),
              getPath_cons_some _ _ _ _ hl, ihq [] (x :: y) v hd2,
              getPath_obj_nil_ne _ (by simp)]
            simp
          | bool b2 =>
            simp only [hl]
            rw [getPath_cons_some _ _ _ _ (lookupKey_setKey_self t a _),
              getPath_cons_some _ _ _ _ hl, ihq [] (x :: y) v hd2,
              getPath_obj_nil_ne _ (by simp)]
            simp
          | null =>
            simp only [hl]
            rw [getPath_cons_some _ _ _ _ (lookupKey_setKey_self t a _),
              getPath_cons_some _ _ _ _ hl, ihq [] (x :: y) v hd2,
              getPath_obj_nil_ne _ (by simp)]
            simp
      · cases hl : lookupKey t b with
        | none =>
          simp only [hl]
          rw [getPath_setKey_ne t b a _ a2 hab]
        | some w =>
          cases w with
          | obj inner =>
            simp only [hl]
            rw [getPath_setKey_ne t b a _ a2 hab]
          | arr l => simp only [hl]
          | str s2 =>
            simp only [hl]
            rw [getPath_setKey_ne t b a _ a2 hab]
          | num n =>
            simp only [hl]
            rw [getPath_setKey_ne t b a _ a2 hab]
          | bool b2 =>
            simp only [hl]
            rw [getPath_setKey_ne t b a _ a2 hab]
          | null =>
            simp only [hl]
            rw [getPath_setKey_ne t b a _ a2 hab]

/-- A write cannot obstruct a diverging clear path. -/
theorem pathClear_writePath_diverge (q : List String) :
    ∀ (t : JsonObject) (p : List String) (v : String), divergeB p q = true →
      pathClear t p = true → pathClear (writePath t q v) p = true := by
  induction q with
  | nil =>
    intro t p v hd _
    exact absurd rfl (divergeB_ne_nil_right p [] hd)
  | cons b bs ihq =>
    intro t p v hd hc
    obtain ⟨a, a2, rfl⟩ : ∃ a a2, p = a :: a2 := by
      cases p with
      | nil => simp [divergeB] at hd
      | cons x y => exact ⟨x, y, rfl⟩
    cases a2 with
    | nil => exact pathClear_single _ a
    | cons x y =>
      cases bs with
      | nil =>
        have hab : a ≠ b := by
          rintro rfl
          rw [show divergeB (a :: x :: y) [a] =
            (a != a || divergeB (x :: y) []) from rfl] at hd
          simp [divergeB_nil_right] at hd
        rw [show writePath t [b] v = setKey t b (.str v) from rfl,
          pathClear_setKey_ne t b a (.str v) (x :: y) hab]
        exact hc
      | cons c cs =>
        rw [writePath_cons2]
        by_cases hab : a = b
        · subst hab
          have hd2 : divergeB (x :: y) (c :: cs) = true := by
            rw [show divergeB (a :: x :: y) (a :: c :: cs) =
              (a != a || divergeB (x :: y) (c :: cs)) from rfl] at hd
            simpa using hd
          rw [pathClear_cons2] at hc
          cases hl : lookupKey t a with
          | none =>
            simp only [hl]
            rw [pathClear_cons2, lookupKey_setKey_self]
            exact ihq [] (x :: y) v hd2 (pathClear_nil_of_ne _ (by simp))
          | some w =>
            cases w with
            | obj inner =>
              simp only [hl] at hc ⊢
              rw [pathClear_cons2, lookupKey_setKey_self]
              exact ihq inner (x :: y) v hd2 hc
            | arr l =>
              simp only [hl] at hc
              exact Bool.noConfusion hc
            | str s2 =>
              simp only [hl]
              rw [pathClear_cons2, lookupKey_setKey_self]
              exact ihq [] (x :: y) v hd2 (pathClear_nil_of_ne _ (by simp))
            | num n =>
              simp only [hl]
              rw [pathClear_cons2, lookupKey_setKey_self]
              exact ihq [] (x :: y) v hd2 (pathClear_nil_of_ne _ (by simp))
            | bool b2 =>
              simp only [hl]
              rw [pathClear_cons2, lookupKey_setKey_self]
              exact ihq [] (x :: y) v hd2 (pathClear_nil_of_ne _ (by simp))
            | null =>
              simp only [hl]
              rw [pathClear_cons2, lookupKey_setKey_self]
              exact ihq [] (x :: y) v hd2 (pathClear_nil_of_ne _ (by simp))
        · cases hl : lookupKey t b with
          | none =>
            simp only [hl]
            rw [pathClear_setKey_ne t b a _ (x :: y) hab]
            exact hc
          | some w =>
            cases w with
            | obj inner =>
              simp only [hl]
              rw [pathClear_setKey_ne t b a _ (x :: y) hab]
              exact hc
            | arr l =>
              simp only [hl]
              exact hc
            | str s2 =>
              simp only [hl]
              rw [pathClear_setKey_ne t b a _ (x :: y) hab]
              exact hc
            | num n =>
              simp only [hl]
              rw [pathClear_setKey_ne t b a _ (x :: y) hab]
              exact hc
            | bool b2 =>
              simp only [hl]
              rw [pathClear_setKey_ne t b a _ (x :: y) hab]
              exact hc
            | null =>
              simp only [hl]
              rw [pathClear_setKey_ne t b a _ (x :: y) hab]
              exact hc

/-! ### Lemmas about the batch apply loop -/

theorem headD_eq_getD_zero (l : List String) : l.headD "" = l.getD 0 "" := by
  cases l <;> rfl

theorem getD_succ_tail (l : List String) (j : Nat) :
    l.getD (j + 1) "" = l.tail.getD j "" := by
  cases l <;> rfl

theorem applyBatch_count (batch : List TranslationKey) :
    ∀ (target : JsonObject) (vals : List String),
      (applyBatch target batch vals).2 = batch.length := by
  induction batch with
  | nil => intro t v; rfl
  | cons tk rest ih =>
    intro t v
    simp only [applyBatch, ih, List.length_cons]

theorem getPath_applyBatch_diverge (batch : List TranslationKey) :
    ∀ (target : JsonObject) (vals : List String) (p : List String),
      (∀ tk ∈ batch, divergeB p tk.key = true) →
      JsonValue.getPath (.obj (applyBatch target batch vals).1) p =
        JsonValue.getPath (.obj target) p := by
  induction batch with
  | nil => intro t v p _; rfl
  | cons tk rest ih =>
    intro t v p hdiv
    simp only [applyBatch]
    rw [ih _ _ p (fun x hx => hdiv x (List.mem_cons_of_mem tk hx))]
    exact getPath_writePath_diverge tk.key t p _ (hdiv tk (List.mem_cons_self tk rest))

theorem pathClear_applyBatch_diverge (batch : List TranslationKey) :
    ∀ (target : JsonObject) (vals : List String) (p : List String),
      (∀ tk ∈ batch, divergeB p tk.key = true) →
      pathClear target p = true →
      pathClear (applyBatch target batch vals).1 p = true := by
  induction batch with
  | nil => intro t v p _ hc; exact hc
  | cons tk rest ih =>
    intro t v p hdiv hc
    simp only [applyBatch]
    exact ih _ _ p (fun x hx => hdiv x (List.mem_cons_of_mem tk hx))
      (pathClear_writePath_diverge tk.key t p _
        (hdiv tk (List.mem_cons_self tk rest)) hc)

/-- The apply loop writes the i-th resolved value at the i-th task path,
provided the task paths are pairwise diverging and clear. -/
theorem getPath_applyBatch_self (batch : List TranslationKey) :
    ∀ (target : JsonObject) (vals : List String),
      batch.Pairwise (fun a b => divergeB a.key b.key = true) →
      (∀ tk ∈ batch, pathClear target tk.key = true) →
      ∀ (j : Nat) (hj : j < batch.length),
        JsonValue.getPath (.obj (applyBatch target batch vals).1)
            ((batch.get ⟨j, hj⟩).key) = some (.str (vals.getD j "")) := by
  induction batch with
  | nil =>
    intro t v _ _ j hj
    exact absurd hj (by simp)
  | cons tk rest ih =>
    intro t v hpw hclear j hj
    obtain ⟨hhead, hrest⟩ := List.pairwise_cons.mp hpw
    simp only [applyBatch]
    cases j with
    | zero =>
      simp only [List.get]
      rw [getPath_applyBatch_diverge rest _ _ tk.key
        (fun x hx => hhead x hx)]
      rw [getPath_writePath_self tk.key t _ (hclear tk (List.mem_cons_self tk rest))]
      rw [headD_eq_getD_zero]
    | succ j' =>
      have hj' : j' < rest.length := by simpa using hj
      have hcl : ∀ x ∈ rest, pathClear (writePath t tk.key (v.headD "")) x.key = true := by
        intro x hx
        refine pathClear_writePath_diverge tk.key t x.key _ ?_
          (hclear x (List.mem_cons_of_mem tk hx))
        rw [divergeB_symm]
        exact hhead x hx
      have hres := ih (writePath t tk.key (v.headD "")) v.tail hrest hcl j' hj'
      rw [List.get_cons_succ, getD_succ_tail]
      exact hres

/-! ### Lemmas about the resolved values of one batch -/

theorem zipBulk_length (batch : List TranslationKey) :
    ∀ (outs : List String), (zipBulk batch outs).length = batch.length := by
  induction batch with
  | nil => intro outs; rfl
  | cons item rest ih =>
    intro outs
    by_cases h : isTranslatable item <;> simp [zipBulk, h, ih]

theorem perItemVals_length (tr : Translator) (batch : List TranslationKey) :
    (perItemVals tr batch).length = batch.length := by
  simp [perItemVals]

theorem batchVals_length (tr : Translator) (batch : List TranslationKey) :
    (batchVals tr batch).length = batch.length := by
  rw [batchVals]
  by_cases h : 0 < (batch.filter isTranslatable).length
  · rw [if_pos h]
    cases tr (toTranslateTexts batch) with
    | ok outs => exact zipBulk_length batch outs
    | error e => exact perItemVals_length tr batch
  · rw [if_neg h]
    exact List.length_replicate batch.length ""

theorem zipBulk_getD (batch : List TranslationKey) :
    ∀ (outs : List String) (j : Nat) (hj : j < batch.length),
      (zipBulk batch outs).getD j "" =
        if isTranslatable (batch.get ⟨j, hj⟩) then
          outs.getD ((batch.take j).countP isTranslatable) ""
        else "" := by
  induction batch with
  | nil =>
    intro outs j hj
    exact absurd hj (by simp)
  | cons item rest ih =>
    intro outs j hj
    by_cases hit : isTranslatable item
    · rw [show zipBulk (item :: rest) outs =
        outs.headD "" :: zipBulk rest outs.tail from by simp [zipBulk, hit]]
      cases j with
      | zero =>
        simp only [List.getD_cons_zero, List.get, List.take_zero,
          List.countP_nil, if_pos hit]
        exact headD_eq_getD_zero outs
      | succ j' =>
        have hj' : j' < rest.length := by simpa using hj
        rw [List.getD_cons_succ, ih outs.tail j' hj', List.get_cons_succ]
        rw [List.take_succ_cons, List.countP_cons_of_pos _ _ hit]
        rw [show (rest.take j').countP isTranslatable + 1 =
          ((rest.take j').countP isTranslatable) + 1 from rfl]
        rw [getD_succ_tail]
    · rw [show zipBulk (item :: rest) outs =
        "" :: zipBulk rest outs from by simp [zipBulk, hit]]
      cases j with
      | zero =>
        simp [hit]
      | succ j' =>
        have hj' : j' < rest.length := by simpa using hj
        rw [List.getD_cons_succ, ih outs j' hj', List.get_cons_succ]
        rw [List.take_succ_cons, List.countP_cons_of_neg _ _ (by simpa using hit)]

theorem perItemVals_getD (tr : Translator) (batch : List TranslationKey)
    (j : Nat) (hj : j < batch.length) :
    (perItemVals tr batch).getD j "" =
      (if isTranslatable (batch.get ⟨j, hj⟩) then
        match tr [(batch.get ⟨j, hj⟩).value] with
        | .ok out => out.headD ""
        | .error _ => (batch.get ⟨j, hj⟩).value
      else "") := by
  rw [perItemVals, List.getD_eq_get _ _ (by simpa using hj), List.get_map]

theorem batchVals_bulk_ok (tr : Translator) (batch : List TranslationKey)
    (outs : List String)
    (hne : 0 < (batch.filter isTranslatable).length)
    (htr : tr (toTranslateTexts batch) = .ok outs) :
    batchVals tr batch = zipBulk batch outs := by
  rw [batchVals, if_pos hne, htr]

theorem batchVals_bulk_error (tr : Translator) (batch : List TranslationKey)
    (hne : 0 < (batch.filter isTranslatable).length)
    (htr : tr (toTranslateTexts batch) = .error ()) :
    batchVals tr batch = perItemVals tr batch := by
  rw [batchVals, if_pos hne, htr]

theorem batchVals_no_translatable (tr : Translator)
    (batch : List TranslationKey)
    (hne : ¬0 < (batch.filter isTranslatable).length) :
    batchVals tr batch = List.replicate batch.length "" := by
  rw [batchVals, if_neg hne]

theorem getD_replicate_empty (n j : Nat) :
    (List.replicate n "").getD j "" = "" := by
  by_cases h : j < n
  · rw [List.getD_eq_getElem _ _ (by simpa using h)]
    exact List.getElem_replicate ..
  · exact List.getD_eq_default _ _ (by simpa using h)

/-- A blank task resolves to the empty string in every branch of the
reconciler. -/
theorem batchVals_blank (tr : Translator) (batch : List TranslationKey)
    (j : Nat) (hj : j < batch.length)
    (hblank : isTranslatable (batch.get ⟨j, hj⟩) = false) :
    (batchVals tr batch).getD j "" = "" := by
  rw [batchVals]
  by_cases hne : 0 < (batch.filter isTranslatable).length
  · rw [if_pos hne]
    cases htr : tr (toTranslateTexts batch) with
    | ok outs => rw [zipBulk_getD batch outs j hj, if_neg (by simpa using hblank)]
    | error e => rw [perItemVals_getD tr batch j hj, if_neg (by simpa using hblank)]
  · rw [if_neg hne]
    exact getD_replicate_empty batch.length j

/-! ### Lemmas about batching -/

theorem chunk20_join (keys : List TranslationKey) :
    (chunk20 keys).flatten = keys := by
  induction keys using chunk20.induct with
  | case1 => simp [chunk20]
  | case2 a t ih =>
    rw [chunk20]
    simp only [List.flatten_cons, ih, List.take_append_drop]

theorem chunk20_ne_nil (keys : List TranslationKey) :
    ∀ b ∈ chunk20 keys, b ≠ [] := by
  induction keys using chunk20.induct with
  | case1 =>
    intro b hb
    simp [chunk20] at hb
  | case2 a t ih =>
    intro b hb
    rw [chunk20] at hb
    rcases List.mem_cons.mp hb with rfl | hbr
    · simp
    · exact ih b hbr

theorem applyBatches_count (chunks : List (List TranslationKey)) :
    ∀ (tr : Translator) (target : JsonObject),
      (applyBatches tr chunks target).2 = (chunks.map List.length).sum := by
  induction chunks with
  | nil => intro tr t; rfl
  | cons c rest ih =>
    intro tr t
    simp only [applyBatches, processBatch, applyBatch_count, ih,
      List.map_cons, List.sum_cons]

/-- The value returned by translateAndApply counts every task, fallback
and blank tasks included: it always equals the number of tasks. -/
theorem translateAndApply_count (tr : Translator) (keys : List TranslationKey)
    (target : JsonObject) : (translateAndApply tr keys target).2 = keys.length := by
  rw [translateAndApply, applyBatches_count]
  conv_rhs => rw [← chunk20_join keys]
  simp [List.length_flatten]

theorem getPath_applyBatches_diverge (chunks : List (List TranslationKey)) :
    ∀ (tr : Translator) (target : JsonObject) (p : List String),
      (∀ tk ∈ chunks.flatten, divergeB p tk.key = true) →
      JsonValue.getPath (.obj (applyBatches tr chunks target).1) p =
        JsonValue.getPath (.obj target) p := by
  induction chunks with
  | nil => intro tr t p _; rfl
  | cons c rest ih =>
    intro tr t p hdiv
    have hj1 : ∀ x ∈ c, x ∈ (c :: rest).flatten := by
      intro x hx
      rw [List.flatten_cons]
      exact List.mem_append_left _ hx
    have hj2 : ∀ x ∈ rest.flatten, x ∈ (c :: rest).flatten := by
      intro x hx
      rw [List.flatten_cons]
      exact List.mem_append_right _ hx
    simp only [applyBatches]
    rw [ih tr _ p (fun x hx => hdiv x (hj2 x hx))]
    exact getPath_applyBatch_diverge c t _ p (fun x hx => hdiv x (hj1 x hx))

/-- Main merge theorem: after translateAndApply runs over pairwise
diverging, clear task paths, every task path of every slice holds the
resolved value computed for its position in its slice. -/
theorem applyBatches_getPath (chunks : List (List TranslationKey)) :
    ∀ (tr : Translator) (target : JsonObject),
      chunks.flatten.Pairwise (fun a b => divergeB a.key b.key = true) →
      (∀ tk ∈ chunks.flatten, pathClear target tk.key = true) →
      ∀ b ∈ chunks, ∀ (j : Nat) (hj : j < b.length),
        JsonValue.getPath (.obj (applyBatches tr chunks target).1)
            ((b.get ⟨j, hj⟩).key) =
          some (.str ((batchVals tr b).getD j "")) := by
  induction chunks with
  | nil =>
    intro tr t _ _ b hb
    exact absurd hb (by simp)
  | cons c rest ih =>
    intro tr t hpw hclear b hb j hj
    rw [List.flatten_cons] at hpw hclear
    obtain ⟨hpc, hprest, hcross⟩ := List.pairwise_append.mp hpw
    simp only [applyBatches]
    rcases List.mem_cons.mp hb with rfl | hbr
    · rw [getPath_applyBatches_diverge rest tr _ ((b.get ⟨j, hj⟩).key)
        (fun x hx => hcross _ (List.get_mem b j hj) x hx)]
      exact getPath_applyBatch_self b t (batchVals tr b) hpc
        (fun tk htk => hclear tk (List.mem_append_left _ htk)) j hj
    · refine ih tr _ hprest ?_ b hbr j hj
      intro tk htk
      refine pathClear_applyBatch_diverge c t _ tk.key ?_
        (hclear tk (List.mem_append_right _ htk))
      intro x hx
      rw [divergeB_symm]
      exact hcross x hx tk htk

/-! ### The diff leaves foreign keys and non-string source values alone -/

theorem any_key_cons (k0 : String) (v : JsonValue) (rest : JsonObject)
    (k : String) (h : ((k0, v) :: rest).any (fun p => p.1 = k) = false) :
    k0 ≠ k ∧ rest.any (fun p => p.1 = k) = false := by
  simp only [List.any_cons, Bool.or_eq_false_iff, decide_eq_false_iff_not] at h
  refine ⟨h.1, ?_⟩
  have := h.2
  simpa using this

theorem addMissingKeys_str_write (key : String) (s0 : String)
    (rest target : JsonObject) (kp : List String)
    (hnostr : ∀ t, lookupKey target key = some (.str t) → False) :
    addMissingKeys ((key, .str s0) :: rest) target kp =
      ((addMissingKeys rest (setKey target key (.str "")) kp).1,
        (⟨kp ++ [key], s0⟩ : TranslationKey) ::
          (addMissingKeys rest (setKey target key (.str "")) kp).2) := by
  cases hl : lookupKey target key with
  | none => simp [addMissingKeys, hl]
  | some v =>
    cases v with
    | str t => exact absurd hl (hnostr t)
    | obj o => simp [addMissingKeys, hl]
    | num n => simp [addMissingKeys, hl]
    | bool b => simp [addMissingKeys, hl]
    | null => simp [addMissingKeys, hl]
    | arr l => simp [addMissingKeys, hl]

/-- A key absent from the source keeps its target binding through the
diff. -/
theorem lookupKey_addMissingKeys_absent :
    ∀ (S T : JsonObject) (kp : List String), ∀ (k : String),
      S.any (fun p => p.1 = k) = false →
      lookupKey (addMissingKeys S T kp).1 k = lookupKey T k := by
  intro S T kp
  induction S, T, kp using addMissingKeys.induct with
  | case1 target kp =>
    intro k h
    simp [addMissingKeys]
  | case2 key rest target kp so r1 ihso ihrest =>
    intro k h
    obtain ⟨h1, h2⟩ := any_key_cons _ _ _ _ h
    simp only [addMissingKeys]
    rw [ihrest k h2]
    exact lookupKey_setKey_ne target key k _ (Ne.symm h1)
  | case3 key rest target kp s0 t hlook hpos ih =>
    intro k h
    obtain ⟨h1, h2⟩ := any_key_cons _ _ _ _ h
    simp only [addMissingKeys, hlook, if_pos hpos]
    exact ih k h2
  | case4 key rest target kp s0 t hlook hnpos ih =>
    intro k h
    obtain ⟨h1, h2⟩ := any_key_cons _ _ _ _ h
    simp only [addMissingKeys, hlook, if_neg hnpos]
    rw [ih k h2]
    exact lookupKey_setKey_ne target key k _ (Ne.symm h1)
  | case5 key rest target kp s0 hnostr ih =>
    intro k h
    obtain ⟨h1, h2⟩ := any_key_cons _ _ _ _ h
    rw [addMissingKeys_str_write key s0 rest target kp hnostr]
    rw [ih k h2]
    exact lookupKey_setKey_ne target key k _ (Ne.symm h1)
  | case6 key sv rest target kp hno hns ih =>
    intro k h
    obtain ⟨h1, h2⟩ := any_key_cons _ _ _ _ h
    cases sv with
    | obj so => exact absurd rfl (hno so)
    | str s1 => exact absurd rfl (hns s1)
    | num n =>
      simp only [addMissingKeys]
      exact ih k h2
    | bool b =>
      simp only [addMissingKeys]
      exact ih k h2
    | null =>
      simp only [addMissingKeys]
      exact ih k h2
    | arr l =>
      simp only [addMissingKeys]
      exact ih k h2

theorem getPath_innerObject (T : JsonObject) (key : String) (q : List String)
    (hq : q ≠ []) :
    JsonValue.getPath (.obj T) (key :: q) =
      JsonValue.getPath (.obj (innerObject T key)) q := by
  obtain ⟨a, b, rfl⟩ : ∃ a b, q = a :: b := by
    cases q with
    | nil => exact absurd rfl hq
    | cons a b => exact ⟨a, b, rfl⟩
  cases h : lookupKey T key with
  | none => simp [innerObject, getPath_cons, h, lookupKey]
  | some v =>
    cases v with
    | obj o => simp [innerObject, getPath_cons, h]
    | str s => simp [innerObject, getPath_cons, h, lookupKey]
    | num n => simp [innerObject, getPath_cons, h, lookupKey]
    | bool b2 => simp [innerObject, getPath_cons, h, lookupKey]
    | null => simp [innerObject, getPath_cons, h, lookupKey]
    | arr l => simp [innerObject, getPath_cons, h, lookupKey]

/-- The diff never changes what the target holds at a path where the
source holds a number, boolean, null or array. -/
theorem getPath_addMissingKeys_nontraversable :
    ∀ (S T : JsonObject) (kp : List String), wfEntries S = true →
      ∀ (p : List String) (v : JsonValue),
        JsonValue.getPath (.obj S) p = some v → isNonTraversable v = true →
        JsonValue.getPath (.obj (addMissingKeys S T kp).1) p =
          JsonValue.getPath (.obj T) p := by
  intro S T kp
  induction S, T, kp using addMissingKeys.induct with
  | case1 target kp =>
    intro _ p v hsrc hv
    simp [addMissingKeys]
  | case2 key rest target kp so r1 ihso ihrest =>
    intro hwf p v hsrc hv
    obtain ⟨habs, hwfso, hwfrest⟩ := wf_cons _ _ _ hwf
    simp only [JsonValue.wfB] at hwfso
    obtain ⟨k, q, rfl⟩ : ∃ k q, p = k :: q := by
      cases p with
      | nil =>
        rw [getPath_nil] at hsrc
        cases hsrc
        simp [isNonTraversable] at hv
      | cons a b => exact ⟨a, b, rfl⟩
    by_cases hk : k = key
    · subst hk
      rw [getPath_obj_cons_self] at hsrc
      have hq : q ≠ [] := by
        rintro rfl
        rw [getPath_nil] at hsrc
        cases hsrc
        simp [isNonTraversable] at hv
      simp only [addMissingKeys]
      have hlk : lookupKey (addMissingKeys rest
          (setKey target k
            (.obj (addMissingKeys so (innerObject target k) (kp ++ [k])).1)) kp).1 k
          = some (.obj (addMissingKeys so (innerObject target k) (kp ++ [k])).1) := by
        rw [lookupKey_addMissingKeys_absent rest _ kp k habs]
        exact lookupKey_setKey_self target k _
      rw [getPath_cons_some _ _ _ _ hlk]
      rw [ihso hwfso q v hsrc hv]
      exact (getPath_innerObject target k q hq).symm
    · rw [getPath_obj_cons_ne key _ rest k q hk] at hsrc
      simp only [addMissingKeys]
      rw [ihrest hwfrest (k :: q) v hsrc hv]
      exact getPath_setKey_ne target key k _ q hk
  | case3 key rest target kp s0 t hlook hpos ih =>
    intro hwf p v hsrc hv
    obtain ⟨habs, _, hwfrest⟩ := wf_cons _ _ _ hwf
    obtain ⟨k, q, rfl⟩ : ∃ k q, p = k :: q := by
      cases p with
      | nil =>
        rw [getPath_nil] at hsrc
        cases hsrc
        simp [isNonTraversable] at hv
      | cons a b => exact ⟨a, b, rfl⟩
    have hk : k ≠ key := by
      rintro rfl
      rw [getPath_obj_cons_self] at hsrc
      cases q with
      | nil =>
        rw [getPath_nil] at hsrc
        cases hsrc
        simp [isNonTraversable] at hv
      | cons a b => simp at hsrc
    rw [getPath_obj_cons_ne key _ rest k q hk] at hsrc
    simp only [addMissingKeys, hlook, if_pos hpos]
    exact ih hwfrest (k :: q) v hsrc hv
  | case4 key rest target kp s0 t hlook hnpos ih =>
    intro hwf p v hsrc hv
    obtain ⟨habs, _, hwfrest⟩ := wf_cons _ _ _ hwf
    obtain ⟨k, q, rfl⟩ : ∃ k q, p = k :: q := by
      cases p with
      | nil =>
        rw [getPath_nil] at hsrc
        cases hsrc
        simp [isNonTraversable] at hv
      | cons a b => exact ⟨a, b, rfl⟩
    have hk : k ≠ key := by
      rintro rfl
      rw [getPath_obj_cons_self] at hsrc
      cases q with
      | nil =>
        rw [getPath_nil] at hsrc
        cases hsrc
        simp [isNonTraversable] at hv
      | cons a b => simp at hsrc
    rw [getPath_obj_cons_ne key _ rest k q hk] at hsrc
    simp only [addMissingKeys, hlook, if_neg hnpos]
    rw [ih hwfrest (k :: q) v hsrc hv]
    exact getPath_setKey_ne target key k _ q hk
  | case5 key rest target kp s0 hnostr ih =>
    intro hwf p v hsrc hv
    obtain ⟨habs, _, hwfrest⟩ := wf_cons _ _ _ hwf
    obtain ⟨k, q, rfl⟩ : ∃ k q, p = k :: q := by
      cases p with
      | nil =>
        rw [getPath_nil] at hsrc
        cases hsrc
        simp [isNonTraversable] at hv
      | cons a b => exact ⟨a, b, rfl⟩
    have hk : k ≠ key := by
      rintro rfl
      rw [getPath_obj_cons_self] at hsrc
      cases q with
      | nil =>
        rw [getPath_nil] at hsrc
        cases hsrc
        simp [isNonTraversable] at hv
      | cons a b => simp at hsrc
    rw [getPath_obj_cons_ne key _ rest k q hk] at hsrc
    rw [addMissingKeys_str_write key s0 rest target kp hnostr]
    rw [ih hwfrest (k :: q) v hsrc hv]
    exact getPath_setKey_ne target key k _ q hk
  | case6 key sv rest target kp hno hns ih =>
    intro hwf p v hsrc hv
    obtain ⟨habs, _, hwfrest⟩ := wf_cons _ _ _ hwf
    obtain ⟨k, q, rfl⟩ : ∃ k q, p = k :: q := by
      cases p with
      | nil =>
        rw [getPath_nil] at hsrc
        cases hsrc
        simp [isNonTraversable] at hv
      | cons a b => exact ⟨a, b, rfl⟩
    have hred : (addMissingKeys ((key, sv) :: rest) target kp) =
        addMissingKeys rest target kp := by
      cases sv with
      | obj so => exact absurd rfl (hno so)
      | str s1 => exact absurd rfl (hns s1)
      | num n => simp [addMissingKeys]
      | bool b => simp [addMissingKeys]
      | null => simp [addMissingKeys]
      | arr l => simp [addMissingKeys]
    rw [hred]
    by_cases hk : k = key
    · subst hk
      rw [getPath_obj_cons_self] at hsrc
      cases q with
      | nil =>
        rw [getPath_single, getPath_single]
        exact lookupKey_addMissingKeys_absent rest target kp k habs
      | cons a b =>
        rw [getPath_cons_nonobj sv ?hno2 a b] at hsrc
        · exact Option.noConfusion hsrc
        case hno2 => exact hno
    · rw [getPath_obj_cons_ne key _ rest k q hk] at hsrc
      exact ih hwfrest (k :: q) v hsrc hv

/-- At a source string path, the diff leaves a filled target leaf alone
and otherwise installs the empty-string placeholder. -/
theorem getPath_addMissingKeys_str :
    ∀ (S T : JsonObject) (kp : List String), wfEntries S = true →
      ∀ (p : List String) (s : String),
        JsonValue.getPath (.obj S) p = some (.str s) →
        JsonValue.getPath (.obj (addMissingKeys S T kp).1) p =
          (if filledAt T p then JsonValue.getPath (.obj T) p
           else some (.str "")) := by
  intro S T kp
  induction S, T, kp using addMissingKeys.induct with
  | case1 target kp =>
    intro _ p s hsrc
    cases p with
    | nil => simp at hsrc
    | cons a b => simp [getPath_cons, lookupKey] at hsrc
  | case2 key rest target kp so r1 ihso ihrest =>
    intro hwf p s hsrc
    obtain ⟨habs, hwfso, hwfrest⟩ := wf_cons _ _ _ hwf
    simp only [JsonValue.wfB] at hwfso
    obtain ⟨k, q, rfl⟩ : ∃ k q, p = k :: q := by
      cases p with
      | nil => simp at hsrc
      | cons a b => exact ⟨a, b, rfl⟩
    by_cases hk : k = key
    · subst hk
      rw [getPath_obj_cons_self] at hsrc
      have hq : q ≠ [] := by
        rintro rfl
        simp at hsrc
      simp only [addMissingKeys]
      have hlk : lookupKey (addMissingKeys rest
          (setKey target k
            (.obj (addMissingKeys so (innerObject target k) (kp ++ [k])).1)) kp).1 k
          = some (.obj (addMissingKeys so (innerObject target k) (kp ++ [k])).1) := by
        rw [lookupKey_addMissingKeys_absent rest _ kp k habs]
        exact lookupKey_setKey_self target k _
      rw [getPath_cons_some _ _ _ _ hlk]
      rw [ihso hwfso q s hsrc]
      rw [filledAt_inner target k q hq, getPath_innerObject target k q hq]
    · rw [getPath_obj_cons_ne key _ rest k q hk] at hsrc
      simp only [addMissingKeys]
      rw [ihrest hwfrest (k :: q) s hsrc]
      rw [filledAt_setKey_ne target key k _ q hk,
        getPath_setKey_ne target key k _ q hk]
  | case3 key rest target kp s0 t hlook hpos ih =>
    intro hwf p s hsrc
    obtain ⟨habs, _, hwfrest⟩ := wf_cons _ _ _ hwf
    obtain ⟨k, q, rfl⟩ : ∃ k q, p = k :: q := by
      cases p with
      | nil => simp at hsrc
      | cons a b => exact ⟨a, b, rfl⟩
    simp only [addMissingKeys, hlook, if_pos hpos]
    by_cases hk : k = key
    · subst hk
      rw [getPath_obj_cons_self] at hsrc
      cases q with
      | nil =>
        have hfill : filledAt target [k] = true := by
          rw [filledAt_single, hlook]
          simpa using hpos
        rw [hfill, if_pos rfl, getPath_single, getPath_single]
        exact lookupKey_addMissingKeys_absent rest target kp k habs
      | cons a b => simp at hsrc
    · rw [getPath_obj_cons_ne key _ rest k q hk] at hsrc
      exact ih hwfrest (k :: q) s hsrc
  | case4 key rest target kp s0 t hlook hnpos ih =>
    intro hwf p s hsrc
    obtain ⟨habs, _, hwfrest⟩ := wf_cons _ _ _ hwf
    obtain ⟨k, q, rfl⟩ : ∃ k q, p = k :: q := by
      cases p with
      | nil => simp at hsrc
      | cons a b => exact ⟨a, b, rfl⟩
    have hfillkey : filledAt target [key] = false := by
      rw [filledAt_single, hlook]
      simpa using hnpos
    simp only [addMissingKeys, hlook, if_neg hnpos]
    by_cases hk : k = key
    · subst hk
      rw [getPath_obj_cons_self] at hsrc
      cases q with
      | nil =>
        rw [hfillkey, if_neg (by simp), getPath_single]
        rw [lookupKey_addMissingKeys_absent rest _ kp k habs]
        exact lookupKey_setKey_self target k _
      | cons a b => simp at hsrc
    · rw [getPath_obj_cons_ne key _ rest k q hk] at hsrc
      rw [ih hwfrest (k :: q) s hsrc]
      rw [filledAt_setKey_ne target key k _ q hk,
        getPath_setKey_ne target key k _ q hk]
  | case5 key rest target kp s0 hnostr ih =>
    intro hwf p s hsrc
    obtain ⟨habs, _, hwfrest⟩ := wf_cons _ _ _ hwf
    obtain ⟨k, q, rfl⟩ : ∃ k q, p = k :: q := by
      cases p with
      | nil => simp at hsrc
      | cons a b => exact ⟨a, b, rfl⟩
    have hfillkey : filledAt target [key] = false := by
      rw [filledAt_single]
      cases hl : lookupKey target key with
      | none => rfl
      | some v =>
        cases v with
        | str t => exact absurd hl (hnostr t)
        | obj o => rfl
        | num n => rfl
        | bool b => rfl
        | null => rfl
        | arr l => rfl
    rw [addMissingKeys_str_write key s0 rest target kp hnostr]
    by_cases hk : k = key
    · subst hk
      rw [getPath_obj_cons_self] at hsrc
      cases q with
      | nil =>
        rw [hfillkey, if_neg (by simp), getPath_single]
        rw [lookupKey_addMissingKeys_absent rest _ kp k habs]
        exact lookupKey_setKey_self target k _
      | cons a b => simp at hsrc
    · rw [getPath_obj_cons_ne key _ rest k q hk] at hsrc
      rw [ih hwfrest (k :: q) s hsrc]
      rw [filledAt_setKey_ne target key k _ q hk,
        getPath_setKey_ne target key k _ q hk]
  | case6 key sv rest target kp hno hns ih =>
    intro hwf p s hsrc
    obtain ⟨habs, _, hwfrest⟩ := wf_cons _ _ _ hwf
    obtain ⟨k, q, rfl⟩ : ∃ k q, p = k :: q := by
      cases p with
      | nil => simp at hsrc
      | cons a b => exact ⟨a, b, rfl⟩
    have hred : (addMissingKeys ((key, sv) :: rest) target kp) =
        addMissingKeys rest target kp := by
      cases sv with
      | obj so => exact absurd rfl (hno so)
      | str s1 => exact absurd rfl (hns s1)
      | num n => simp [addMissingKeys]
      | bool b => simp [addMissingKeys]
      | null => simp [addMissingKeys]
      | arr l => simp [addMissingKeys]
    rw [hred]
    by_cases hk : k = key
    · subst hk
      rw [getPath_obj_cons_self] at hsrc
      cases q with
      | nil =>
        rw [getPath_nil] at hsrc
        exact absurd (Option.some.inj hsrc) (fun hs => hns s hs)
      | cons a b =>
        rw [getPath_cons_nonobj sv hno a b] at hsrc
        exact Option.noConfusion hsrc
    · rw [getPath_obj_cons_ne key _ rest k q hk] at hsrc
      exact ih hwfrest (k :: q) s hsrc

/-! ### Shape and divergence of the task paths -/

theorem divergeB_append_cons (kp : List String) (a b : String)
    (x y : List String) (h : a ≠ b) :
    divergeB (kp ++ a :: x) (kp ++ b :: y) = true := by
  induction kp with
  | nil => simp [divergeB, bne_iff_ne.mpr h]
  | cons c cs ih => simp [divergeB, ih]

theorem addMissingKeys_task_shape :
    ∀ (S T : JsonObject) (kp : List String),
      ∀ tk ∈ (addMissingKeys S T kp).2, ∃ k q, tk.key = kp ++ k :: q ∧
        S.any (fun p => p.1 = k) = true := by
  intro S T kp
  induction S, T, kp using addMissingKeys.induct with
  | case1 target kp =>
    intro tk htk
    simp [addMissingKeys] at htk
  | case2 key rest target kp so r1 ihso ihrest =>
    intro tk htk
    simp only [addMissingKeys] at htk
    rcases List.mem_append.mp htk with h1 | h2
    · obtain ⟨k, q, hk, _⟩ := ihso tk h1
      refine ⟨key, k :: q, ?_, by simp⟩
      rw [hk, List.append_assoc]
      rfl
    · obtain ⟨k, q, hk, hany⟩ := ihrest tk h2
      exact ⟨k, q, hk, by simp [List.any_cons, hany]⟩
  | case3 key rest target kp s0 t hlook hpos ih =>
    intro tk htk
    simp only [addMissingKeys, hlook, if_pos hpos] at htk
    obtain ⟨k, q, hk, hany⟩ := ih tk htk
    exact ⟨k, q, hk, by simp [List.any_cons, hany]⟩
  | case4 key rest target kp s0 t hlook hnpos ih =>
    intro tk htk
    simp only [addMissingKeys, hlook, if_neg hnpos] at htk
    rcases List.mem_cons.mp htk with rfl | h2
    · exact ⟨key, [], rfl, by simp⟩
    · obtain ⟨k, q, hk, hany⟩ := ih tk h2
      exact ⟨k, q, hk, by simp [List.any_cons, hany]⟩
  | case5 key rest target kp s0 hnostr ih =>
    intro tk htk
    rw [addMissingKeys_str_write key s0 rest target kp hnostr] at htk
    rcases List.mem_cons.mp htk with rfl | h2
    · exact ⟨key, [], rfl, by simp⟩
    · obtain ⟨k, q, hk, hany⟩ := ih tk h2
      exact ⟨k, q, hk, by simp [List.any_cons, hany]⟩
  | case6 key sv rest target kp hno hns ih =>
    intro tk htk
    have hred : (addMissingKeys ((key, sv) :: rest) target kp) =
        addMissingKeys rest target kp := by
      cases sv with
      | obj so => exact absurd rfl (hno so)
      | str s1 => exact absurd rfl (hns s1)
      | num n => simp [addMissingKeys]
      | bool b => simp [addMissingKeys]
      | null => simp [addMissingKeys]
      | arr l => simp [addMissingKeys]
    rw [hred] at htk
    obtain ⟨k, q, hk, hany⟩ := ih tk htk
    exact ⟨k, q, hk, by simp [List.any_cons, hany]⟩

/-- The task paths of one diff run pairwise diverge. -/
theorem addMissingKeys_tasks_pairwise :
    ∀ (S T : JsonObject) (kp : List String), wfEntries S = true →
      (addMissingKeys S T kp).2.Pairwise
        (fun a b => divergeB a.key b.key = true) := by
  intro S T kp
  induction S, T, kp using addMissingKeys.induct with
  | case1 target kp =>
    intro _
    simp [addMissingKeys]
  | case2 key rest target kp so r1 ihso ihrest =>
    intro hwf
    obtain ⟨habs, hwfso, hwfrest⟩ := wf_cons _ _ _ hwf
    simp only [JsonValue.wfB] at hwfso
    simp only [addMissingKeys]
    rw [List.pairwise_append]
    refine ⟨ihso hwfso, ihrest hwfrest, ?_⟩
    intro a ha b hb
    obtain ⟨ka, qa, hka, _⟩ := addMissingKeys_task_shape so _ (kp ++ [key]) a ha
    obtain ⟨kb, qb, hkb, hanyb⟩ := addMissingKeys_task_shape rest _ kp b hb
    have hkb2 : kb ≠ key := by
      rintro rfl
      rw [habs] at hanyb
      exact Bool.noConfusion hanyb
    rw [hka, hkb, List.append_assoc]
    exact divergeB_append_cons kp key kb _ _ (Ne.symm hkb2)
  | case3 key rest target kp s0 t hlook hpos ih =>
    intro hwf
    obtain ⟨habs, _, hwfrest⟩ := wf_cons _ _ _ hwf
    simp only [addMissingKeys, hlook, if_pos hpos]
    exact ih hwfrest
  | case4 key rest target kp s0 t hlook hnpos ih =>
    intro hwf
    obtain ⟨habs, _, hwfrest⟩ := wf_cons _ _ _ hwf
    simp only [addMissingKeys, hlook, if_neg hnpos]
    rw [List.pairwise_cons]
    refine ⟨?_, ih hwfrest⟩
    intro b hb
    obtain ⟨kb, qb, hkb, hanyb⟩ := addMissingKeys_task_shape rest _ kp b hb
    have hkb2 : kb ≠ key := by
      rintro rfl
      rw [habs] at hanyb
      exact Bool.noConfusion hanyb
    show divergeB (kp ++ [key]) b.key = true
    rw [hkb]
    exact divergeB_append_cons kp key kb [] qb (Ne.symm hkb2)
  | case5 key rest target kp s0 hnostr ih =>
    intro hwf
    obtain ⟨habs, _, hwfrest⟩ := wf_cons _ _ _ hwf
    rw [addMissingKeys_str_write key s0 rest target kp hnostr]
    rw [List.pairwise_cons]
    refine ⟨?_, ih hwfrest⟩
    intro b hb
    obtain ⟨kb, qb, hkb, hanyb⟩ := addMissingKeys_task_shape rest _ kp b hb
    have hkb2 : kb ≠ key := by
      rintro rfl
      rw [habs] at hanyb
      exact Bool.noConfusion hanyb
    show divergeB (kp ++ [key]) b.key = true
    rw [hkb]
    exact divergeB_append_cons kp key kb [] qb (Ne.symm hkb2)
  | case6 key sv rest target kp hno hns ih =>
    intro hwf
    obtain ⟨habs, _, hwfrest⟩ := wf_cons _ _ _ hwf
    have hred : (addMissingKeys ((key, sv) :: rest) target kp) =
        addMissingKeys rest target kp := by
      cases sv with
      | obj so => exact absurd rfl (hno so)
      | str s1 => exact absurd rfl (hns s1)
      | num n => simp [addMissingKeys]
      | bool b => simp [addMissingKeys]
      | null => simp [addMissingKeys]
      | arr l => simp [addMissingKeys]
    rw [hred]
    exact ih hwfrest

/-- A resolvable path is clear: path navigation that succeeds met only
plain objects on its spine. -/
theorem pathClear_of_getPath (p : List String) :
    ∀ (t : JsonObject) (v : JsonValue), p ≠ [] →
      JsonValue.getPath (.obj t) p = some v → pathClear t p = true := by
  induction p with
  | nil =>
    intro t v h _
    exact absurd rfl h
  | cons k q ih =>
    intro t v _ hg
    cases q with
    | nil => exact pathClear_single t k
    | cons a b =>
      rw [pathClear_cons2]
      cases hl : lookupKey t k with
      | none =>
        rw [getPath_cons_none _ _ _ hl] at hg
      | some w =>
        rw [getPath_cons_some _ _ _ _ hl] at hg
        cases w with
        | obj o => exact ih o v (by simp) hg
        | arr l => simp at hg
        | str s => rfl
        | num n => rfl
        | bool b2 => rfl
        | null => rfl

/-- Two distinct paths that both resolve to strings in the same tree
diverge. -/
theorem divergeB_of_str_paths (p : List String) :
    ∀ (S : JsonObject) (p2 : List String) (s s2 : String),
      JsonValue.getPath (.obj S) p = some (.str s) →
      JsonValue.getPath (.obj S) p2 = some (.str s2) →
      p ≠ p2 → divergeB p p2 = true := by
  induction p with
  | nil =>
    intro S p2 s s2 h1 _ _
    simp at h1
  | cons a x ih =>
    intro S p2 s s2 h1 h2 hne
    obtain ⟨b, y, rfl⟩ : ∃ b y, p2 = b :: y := by
      cases p2 with
      | nil => simp at h2
      | cons b y => exact ⟨b, y, rfl⟩
    by_cases hab : a = b
    · subst hab
      cases hl : lookupKey S a with
      | none =>
        rw [getPath_cons_none _ _ _ hl] at h1
        exact Option.noConfusion h1
      | some w =>
        rw [getPath_cons_some _ _ _ _ hl] at h1 h2
        have hxy : x ≠ y := fun hc => hne (by rw [hc])
        cases w with
        | obj o =>
          rw [show divergeB (a :: x) (a :: y) = ((a != a) || divergeB x y) from rfl]
          simp [ih o y s s2 h1 h2 hxy]
        | str st =>
          cases x with
          | nil =>
            cases y with
            | nil => exact absurd rfl hxy
            | cons c d => simp at h2
          | cons c d => simp at h1
        | num n => cases x <;> simp at h1
        | bool b2 => cases x <;> simp at h1
        | null => cases x <;> simp at h1
        | arr l => cases x <;> simp at h1
    · rw [show divergeB (a :: x) (b :: y) = ((a != b) || divergeB x y) from rfl]
      simp [bne_iff_ne.mpr hab]

/-! ### Lemmas about the orchestrator -/

theorem placeholder_after_diff (S T : JsonObject) (hwf : wfEntries S = true) :
    ∀ tk ∈ (addMissingKeys S T []).2,
      JsonValue.getPath (.obj (addMissingKeys S T []).1) tk.key =
        some (.str "") := by
  intro tk htk
  obtain ⟨p, s⟩ := tk
  obtain ⟨q, hpq, hsrc, hfill⟩ := (mem_addMissingKeys_iff S T [] hwf p s).mp htk
  simp only [List.nil_append] at hpq
  subst hpq
  show JsonValue.getPath (.obj (addMissingKeys S T []).1) p = some (.str "")
  rw [getPath_addMissingKeys_str S T [] hwf p s hsrc, hfill]
  simp

theorem outs_added_sum (tr : Translator) (st : Bool) (key : String)
    (src : JsonObject) (locales : List (Option JsonObject)) :
    ((locales.map (fun loc => loc.map (processCatalog tr st key src))).map
      (fun o => match o with | some c => c.added | none => 0)).sum =
      totalAddedOf src locales := by
  induction locales with
  | nil => rfl
  | cons l rest ih =>
    cases l with
    | none =>
      simp only [totalAddedOf, List.map_cons, List.sum_cons] at ih ⊢
      rw [ih]
      rfl
    | some t =>
      simp only [totalAddedOf, List.map_cons, List.sum_cons] at ih ⊢
      rw [ih]
      rfl

theorem mainModel_exit_eq (tr : Translator) (src : JsonObject)
    (locales : List (Option JsonObject)) (st : Bool) (key : String) :
    (mainModel tr true (some src) locales st key).1 =
      (if totalAddedOf src locales = 0 then ExitCode.two else ExitCode.zero) := by
  rw [mainModel]
  simp only [Bool.not_true, Bool.false_eq_true, if_false]
  rw [outs_added_sum tr st key src locales]

theorem totalAddedOf_pos_of_mem (src t : JsonObject)
    (locales : List (Option JsonObject)) (hmem : some t ∈ locales)
    (hne : (addMissingKeys src t []).2 ≠ []) :
    0 < totalAddedOf src locales := by
  obtain ⟨l1, l2, rfl⟩ := List.append_of_mem hmem
  have hpos : 0 < (addMissingKeys src t []).2.length := List.length_pos.mpr hne
  simp only [totalAddedOf, List.map_append, List.sum_append, List.map_cons,
    List.sum_cons]
  omega

theorem filledAt_eq_true_iff (T : JsonObject) (p : List String) :
    filledAt T p = true ↔
      ∃ t, JsonValue.getPath (.obj T) p = some (.str t) ∧ 0 < t.length := by
  unfold filledAt
  cases hg : JsonValue.getPath (.obj T) p with
  | none => simp
  | some v =>
    cases v with
    | str t => simp
    | obj o => simp
    | num n => simp
    | bool b => simp
    | null => simp
    | arr l => simp

/-! ### Theorems settling the claims -/

/-- C4 (confirmed): for all source and target trees, diff produces a task
for a path iff the source value at that path is a string and the target
value at that path is absent, not a string, or the empty string; and
source values that are numbers, booleans, null, or arrays never generate
a task and never cause the target to be mutated at that path. -/
theorem diffCorrect (S T : JsonObject) (hwf : wfEntries S = true) :
    (∀ p, (∃ tk ∈ (addMissingKeys S T []).2, tk.key = p) ↔
      ((∃ s, JsonValue.getPath (.obj S) p = some (.str s)) ∧
        filledAt T p = false)) ∧
    (∀ p v, JsonValue.getPath (.obj S) p = some v → isNonTraversable v = true →
      (¬∃ tk ∈ (addMissingKeys S T []).2, tk.key = p) ∧
      JsonValue.getPath (.obj (addMissingKeys S T []).1) p =
        JsonValue.getPath (.obj T) p) := by
  constructor
  · intro p
    constructor
    · rintro ⟨⟨pp, ss⟩, htk, hkey⟩
      obtain ⟨q, hpq, hsrc, hfill⟩ :=
        (mem_addMissingKeys_iff S T [] hwf pp ss).mp htk
      simp only [List.nil_append] at hpq
      subst hpq
      have hpp : pp = p := hkey
      subst hpp
      exact ⟨⟨ss, hsrc⟩, hfill⟩
    · rintro ⟨⟨s, hsrc⟩, hfill⟩
      exact ⟨⟨p, s⟩, (mem_addMissingKeys_iff S T [] hwf p s).mpr
        ⟨p, by simp, hsrc, hfill⟩, rfl⟩
  · intro p v hsrc hv
    refine ⟨?_, getPath_addMissingKeys_nontraversable S T [] hwf p v hsrc hv⟩
    rintro ⟨⟨pp, ss⟩, htk, hkey⟩
    obtain ⟨q, hpq, hsrc2, _⟩ :=
      (mem_addMissingKeys_iff S T [] hwf pp ss).mp htk
    simp only [List.nil_append] at hpq
    subst hpq
    have hpp : pp = p := hkey
    subst hpp
    rw [hsrc] at hsrc2
    cases hsrc2
    simp [isNonTraversable] at hv

/-- Witness for C4 at the worked example of the spec. -/
theorem diffCorrectWitness :
    wfEntries exSource = true ∧
    ((∃ tk ∈ (addMissingKeys exSource [] []).2, tk.key = ["a", "b"]) ↔
      ((∃ s, JsonValue.getPath (.obj exSource) ["a", "b"] = some (.str s)) ∧
        filledAt ([] : JsonObject) ["a", "b"] = false)) :=
  ⟨by decide, (diffCorrect exSource [] (by decide)).1 ["a", "b"]⟩

/-- C9 (confirmed): immediately after the diff returns, the target tree
holds the empty-string leaf at the path of every returned task. -/
theorem placeholderInvariant (S T : JsonObject) (hwf : wfEntries S = true) :
    ∀ tk ∈ (addMissingKeys S T []).2,
      JsonValue.getPath (.obj (addMissingKeys S T []).1) tk.key =
        some (.str "") :=
  placeholder_after_diff S T hwf

/-- Witness for C9 at the worked example of the spec. -/
theorem placeholderInvariantWitness :
    wfEntries exSource = true ∧
    JsonValue.getPath (.obj (addMissingKeys exSource [] []).1) ["a", "b"] =
      some (.str "") := by
  refine ⟨by decide,
    placeholderInvariant exSource [] (by decide) ⟨["a", "b"], "Hello"⟩ ?_⟩
  simp [exSource, addMissingKeys, lookupKey, setKey, innerObject]

/-- C8 (confirmed): withRetries invokes a failing operation at most 3
times in total, waits 400 ms times the attempt index between consecutive
attempts, re-raises the failure of the last attempt when the ceiling is
reached, and returns the result of the first success immediately without
further invocations. -/
theorem withRetriesContract {e a : Type} (op : Nat → Except e a) :
    (withRetriesTrace op).2.1 ≤ 3 ∧
    (withRetriesTrace op).1 = withRetries op ∧
    (∀ v, op 1 = .ok v → withRetriesTrace op = (.ok v, 1, [])) ∧
    (∀ er v, op 1 = .error er → op 2 = .ok v →
      withRetriesTrace op = (.ok v, 2, [400])) ∧
    (∀ er er2, op 1 = .error er → op 2 = .error er2 →
      withRetriesTrace op = (op 3, 3, [400, 800])) := by
  cases h1 : op 1 with
  | ok v =>
    refine ⟨?_, ?_, ?_, ?_, ?_⟩ <;>
      simp [withRetriesTrace, retryLoopTrace, withRetries, retryLoop, h1]
  | error er =>
    cases h2 : op 2 with
    | ok v =>
      refine ⟨?_, ?_, ?_, ?_, ?_⟩ <;>
        simp [withRetriesTrace, retryLoopTrace, withRetries, retryLoop, h1, h2]
    | error er2 =>
      refine ⟨?_, ?_, ?_, ?_, ?_⟩ <;>
        simp [withRetriesTrace, retryLoopTrace, withRetries, retryLoop, h1, h2]

/-- Witness for C8: an operation failing once is invoked twice, with a
single 400 ms wait, and its second result is returned. -/
theorem withRetriesContractWitness :
    withRetriesTrace opFailOnce = (.ok 5, 2, [400]) :=
  (withRetriesContract opFailOnce).2.2.2.1 () 5 rfl rfl

/-- C7 (confirmed): the process exits with code 0 when at least one leaf
was added across all catalogs, with code 2 when no catalog required any
change, and with code 1 when an unrecoverable top-level error (missing
i18n directory or unreadable source catalog) occurs before any catalog is
processed. -/
theorem exitContract (tr : Translator) (st : Bool) (key : String)
    (src : JsonObject) (locales : List (Option JsonObject)) :
    ((mainModel tr true (some src) locales st key).1 = ExitCode.zero ↔
      0 < totalAddedOf src locales) ∧
    ((mainModel tr true (some src) locales st key).1 = ExitCode.two ↔
      totalAddedOf src locales = 0) ∧
    (∀ srcOpt, (mainModel tr false srcOpt locales st key).1 = ExitCode.one) ∧
    ((mainModel tr true none locales st key).1 = ExitCode.one) := by
  refine ⟨?_, ?_, ?_, ?_⟩
  · rw [mainModel_exit_eq]
    by_cases h : totalAddedOf src locales = 0
    · simp [h]
    · simp [h, Nat.pos_of_ne_zero h]
  · rw [mainModel_exit_eq]
    by_cases h : totalAddedOf src locales = 0
    · simp [h]
    · simp [h]
  · intro srcOpt
    rfl
  · rfl

/-- Counterexample for C2: the first oracle succeeds at the transport
level on attempt 1 with a malformed payload; although attempt 2 would
return a valid payload of the right length, the client raises without any
retry, so malformed payloads are not retried up to the attempt ceiling.
The second oracle fails at the transport level on attempt 1 and the
client succeeds using attempt 2 on its own, so the client does retry
internally. -/
theorem clientRetryCx :
    callOpenAiTranslateBatch oMalformed ["hello"] = .error () ∧
    oMalformed 2 = .ok (some ["x"]) ∧
    ["x"].length = ["hello"].length ∧
    callOpenAiTranslateBatch oTransFail ["hello"] = .ok ["x"] ∧
    oTransFail 1 = .error () :=
  ⟨rfl, rfl, rfl, rfl, rfl⟩

/-- C2 (amended): the retry wrapper sits inside the client and wraps the
transport call only. Transport-level failures are retried up to the
3-attempt ceiling; a transport success is final, so a payload that is
malformed or length-mismatched raises immediately without retry; the
reconciler then degrades to per-item handling on any client error. -/
theorem clientRetryAmended :
    (∀ (o : AttemptOracle) (keys ts : List String),
      o 1 = .error () → o 2 = .ok (some ts) → ts.length = keys.length →
      callOpenAiTranslateBatch o keys = .ok ts) ∧
    (∀ (o : AttemptOracle) (keys : List String) payload,
      o 1 = .ok payload →
      callOpenAiTranslateBatch o keys = payloadCheck keys payload) ∧
    (∀ (keys ts : List String), ts.length ≠ keys.length →
      payloadCheck keys (some ts) = .error ()) ∧
    (∀ keys : List String, payloadCheck keys none = .error ()) ∧
    (∀ (tr : Translator) (batch : List TranslationKey),
      0 < (batch.filter isTranslatable).length →
      tr (toTranslateTexts batch) = .error () →
      batchVals tr batch = perItemVals tr batch) := by
  refine ⟨?_, ?_, ?_, ?_, ?_⟩
  · intro o keys ts h1 h2 hlen
    simp [callOpenAiTranslateBatch, withRetries, retryLoop, h1, h2,
      payloadCheck, hlen]
  · intro o keys payload h1
    simp [callOpenAiTranslateBatch, withRetries, retryLoop, h1]
  · intro keys ts hlen
    simp [payloadCheck, hlen]
  · intro keys
    rfl
  · intro tr batch hne htr
    exact batchVals_bulk_error tr batch hne htr

/-- Witness for C2 amended, at the concrete oracles of the
counterexample. -/
theorem clientRetryAmendedWitness :
    callOpenAiTranslateBatch oTransFail ["hi"] = .ok ["x"] ∧
    callOpenAiTranslateBatch oMalformed ["hi"] = payloadCheck ["hi"] none :=
  ⟨clientRetryAmended.1 oTransFail ["hi"] ["x"] rfl rfl rfl,
    clientRetryAmended.2.1 oMalformed ["hi"] none rfl⟩

/-- Counterexample for C3: a task whose sourceText is the single space,
which is nonempty, is nevertheless excluded from the texts sent to the
provider and resolved to the empty output string, even under a provider
that would succeed. -/
theorem partitionTrimCx :
    (" " : String) ≠ "" ∧
    toTranslateTexts [⟨["a"], " "⟩] = [] ∧
    JsonValue.getPath (.obj (processBatch trBang [] [⟨["a"], " "⟩]).1) ["a"] =
      some (.str "") := by
  refine ⟨by decide, by decide, ?_⟩
  simp [processBatch, batchVals, applyBatch, writePath, setKey, isTranslatable,
    jsTrim, isJsWhitespace, getPath_cons, lookupKey]

/-- C3 (amended): the reconciler partitions each batch by whether the
sourceText trims to something nonempty, not by whether it is empty: a
task is sent to the provider exactly when its text contains a
non-whitespace character, and every task whose text trims to nothing,
the empty string included, resolves to the empty output string in every
branch. -/
theorem partitionTrimAmended (batch : List TranslationKey)
    (tk : TranslationKey) (htk : tk ∈ batch) :
    (0 < (jsTrim tk.value).length ↔ tk.value ∈ toTranslateTexts batch) ∧
    (∀ (tr : Translator) (target : JsonObject),
      batch.Pairwise (fun a b => divergeB a.key b.key = true) →
      (∀ x ∈ batch, pathClear target x.key = true) →
      (jsTrim tk.value).length = 0 →
      JsonValue.getPath (.obj (processBatch tr target batch).1) tk.key =
        some (.str "")) := by
  constructor
  · constructor
    · intro h
      exact List.mem_map.mpr ⟨tk,
        List.mem_filter.mpr ⟨htk, by simp [isTranslatable, h]⟩, rfl⟩
    · intro h
      obtain ⟨x, hx, hval⟩ := List.mem_map.mp h
      have hxt : isTranslatable x = true := (List.mem_filter.mp hx).2
      rw [isTranslatable, decide_eq_true_iff] at hxt
      rw [← hval]
      exact hxt
  · intro tr target hpw hclear hblank
    obtain ⟨⟨j, hj⟩, hget⟩ := List.mem_iff_get.mp htk
    have hbl : isTranslatable (batch.get ⟨j, hj⟩) = false := by
      rw [hget, isTranslatable, decide_eq_false_iff_not]
      omega
    rw [← hget, processBatch,
      getPath_applyBatch_self batch target _ hpw hclear j hj,
      batchVals_blank tr batch j hj hbl]

/-- Witness for C3 amended: the blank single-space task of the
counterexample resolves to the empty string. -/
theorem partitionTrimAmendedWitness :
    JsonValue.getPath (.obj (processBatch trFail [] [⟨["a"], " "⟩]).1) ["a"] =
      some (.str "") :=
  (partitionTrimAmended [⟨["a"], " "⟩] ⟨["a"], " "⟩ (by decide)).2 trFail []
    (by simp) (by decide) (by decide)

/-- C6 (confirmed): for a batch whose single bulk translation call
succeeds, each translatable task ends up holding the provider output at
the position the task occupies in the translatable subsequence (the
number of translatable tasks strictly before it), and every task outside
the translatable subsequence receives the empty string. -/
theorem roundTripMerge (tr : Translator) (batch : List TranslationKey)
    (target : JsonObject) (outs : List String)
    (hpw : batch.Pairwise (fun a b => divergeB a.key b.key = true))
    (hclear : ∀ x ∈ batch, pathClear target x.key = true)
    (hne : 0 < (batch.filter isTranslatable).length)
    (htr : tr (toTranslateTexts batch) = .ok outs)
    (j : Nat) (hj : j < batch.length) :
    JsonValue.getPath (.obj (processBatch tr target batch).1)
        ((batch.get ⟨j, hj⟩).key) =
      some (.str
        (if isTranslatable (batch.get ⟨j, hj⟩) then
          outs.getD ((batch.take j).countP isTranslatable) ""
        else "")) := by
  rw [processBatch, getPath_applyBatch_self batch target _ hpw hclear j hj,
    batchVals_bulk_ok tr batch outs hne htr, zipBulk_getD batch outs j hj]

/-- Witness for C6: a two-task batch with a blank second task; the first
task receives the provider output at index 0 and the second receives the
empty string. -/
theorem roundTripMergeWitness :
    JsonValue.getPath (.obj (processBatch trX [] [⟨["a"], "hi"⟩, ⟨["b"], " "⟩]).1)
        ["a"] = some (.str (["X"].getD 0 "")) ∧
    JsonValue.getPath (.obj (processBatch trX [] [⟨["a"], "hi"⟩, ⟨["b"], " "⟩]).1)
        ["b"] = some (.str "") := by
  have h0 := roundTripMerge trX [⟨["a"], "hi"⟩, ⟨["b"], " "⟩] [] ["X"]
    (by decide) (by decide) (by decide) rfl 0 (by decide)
  have h1 := roundTripMerge trX [⟨["a"], "hi"⟩, ⟨["b"], " "⟩] [] ["X"]
    (by decide) (by decide) (by decide) rfl 1 (by decide)
  constructor
  · simpa using h0
  · simpa using h1

/-- Counterexample for C1: a catalog with one missing leaf under a
provider whose every call fails. The task falls back to its source text
as claimed, but translateAndApply returns 1, not 0: the fallback task is
counted in translatedCount. -/
theorem fallbackCountCx :
    (processCatalog trFail true "k" [("a", .str "hello")] []).added = 1 ∧
    (processCatalog trFail true "k" [("a", .str "hello")] []).translated = 1 ∧
    JsonValue.getPath
      (.obj (processCatalog trFail true "k" [("a", .str "hello")] []).finalTree)
      ["a"] = some (.str "hello") := by
  refine ⟨?_, ?_, ?_⟩
  · simp [processCatalog, addMissingKeys, lookupKey, setKey]
  · simp [processCatalog, addMissingKeys, lookupKey, setKey, translateAndApply,
      chunk20, applyBatches, processBatch, applyBatch, batchVals, trFail,
      isTranslatable, perItemVals, toTranslateTexts, writePath]
  · simp [processCatalog, addMissingKeys, lookupKey, setKey, translateAndApply,
      chunk20, applyBatches, processBatch, applyBatch, batchVals, trFail,
      isTranslatable, perItemVals, toTranslateTexts, writePath, getPath_cons]
    decide

/-- C1 (amended): when the bulk call of a translatable task and its
per-item call both fail, the reconciler writes the original sourceText as
the final leaf value at the task path; the task is counted in addedCount
and it is also counted in translatedCount, because translateAndApply
increments its counter once per task of every batch, fallbacks included,
so its return value always equals the total number of tasks. -/
theorem fallbackFloorAmended (tr : Translator) (keys : List TranslationKey)
    (target : JsonObject) (tk : TranslationKey)
    (hpw : keys.Pairwise (fun a b => divergeB a.key b.key = true))
    (hclear : ∀ x ∈ keys, pathClear target x.key = true)
    (htk : tk ∈ keys)
    (htr : isTranslatable tk = true)
    (hfail : ∀ l, tr l = .error ()) :
    JsonValue.getPath (.obj (translateAndApply tr keys target).1) tk.key =
      some (.str tk.value) ∧
    (translateAndApply tr keys target).2 = keys.length := by
  refine ⟨?_, translateAndApply_count tr keys target⟩
  have htk2 : tk ∈ (chunk20 keys).flatten := by
    rw [chunk20_join]
    exact htk
  obtain ⟨b, hb, htkb⟩ := List.mem_flatten.mp htk2
  obtain ⟨⟨j, hj⟩, hget⟩ := List.mem_iff_get.mp htkb
  rw [translateAndApply]
  have hval := applyBatches_getPath (chunk20 keys) tr target
    (by rw [chunk20_join]; exact hpw)
    (by rw [chunk20_join]; exact hclear) b hb j hj
  rw [hget] at hval
  rw [hval]
  have hfne : 0 < (b.filter isTranslatable).length := by
    have hmem : tk ∈ b.filter isTranslatable :=
      List.mem_filter.mpr ⟨htkb, htr⟩
    exact List.length_pos.mpr (List.ne_nil_of_mem hmem)
  rw [batchVals_bulk_error tr b hfne (hfail _),
    perItemVals_getD tr b j hj, hget, if_pos htr, hfail [tk.value]]

/-- Witness for C1 amended at a singleton task list under the always
failing provider. -/
theorem fallbackFloorAmendedWitness :
    JsonValue.getPath
        (.obj (translateAndApply trFail [⟨["a"], "hello"⟩] []).1) ["a"] =
      some (.str "hello") ∧
    (translateAndApply trFail [⟨["a"], "hello"⟩] []).2 = 1 := by
  have h := fallbackFloorAmended trFail [⟨["a"], "hello"⟩] [] ⟨["a"], "hello"⟩
    (by simp) (by decide) (by decide) (by decide) (fun l => rfl)
  exact ⟨h.1, h.2⟩

/-- The goodProvider property of the constant provider trX. -/
theorem trX_good : goodProvider trX := by
  intro l
  refine ⟨l.map (fun _ => "X"), rfl, by simp, ?_⟩
  intro s hs
  obtain ⟨a, _, rfl⟩ := List.mem_map.mp hs
  decide

/-- Under a provider that always succeeds with nonempty outputs, every
task of an all-translatable task list ends up holding a nonempty string. -/
theorem translateAndApply_good_value (tr : Translator)
    (keys : List TranslationKey) (target : JsonObject)
    (hpw : keys.Pairwise (fun a b => divergeB a.key b.key = true))
    (hclear : ∀ x ∈ keys, pathClear target x.key = true)
    (hgood : goodProvider tr)
    (halltr : ∀ tk ∈ keys, isTranslatable tk = true)
    (tk : TranslationKey) (htk : tk ∈ keys) :
    ∃ v, JsonValue.getPath (.obj (translateAndApply tr keys target).1) tk.key =
      some (.str v) ∧ v ≠ "" := by
  have htk2 : tk ∈ (chunk20 keys).flatten := by
    rw [chunk20_join]
    exact htk
  obtain ⟨b, hb, htkb⟩ := List.mem_flatten.mp htk2
  obtain ⟨⟨j, hj⟩, hget⟩ := List.mem_iff_get.mp htkb
  rw [translateAndApply]
  have hval := applyBatches_getPath (chunk20 keys) tr target
    (by rw [chunk20_join]; exact hpw)
    (by rw [chunk20_join]; exact hclear) b hb j hj
  rw [hget] at hval
  have hmemflat : ∀ x ∈ b, x ∈ keys := by
    intro x hx
    rw [← chunk20_join keys]
    exact List.mem_flatten.mpr ⟨b, hb, hx⟩
  have hfilter : b.filter isTranslatable = b :=
    List.filter_eq_self.mpr (fun x hx => halltr x (hmemflat x hx))
  have hfne : 0 < (b.filter isTranslatable).length := by
    rw [hfilter]
    exact List.length_pos.mpr (chunk20_ne_nil keys b hb)
  obtain ⟨outs, htr, hlen, hne⟩ := hgood (toTranslateTexts b)
  rw [batchVals_bulk_ok tr b outs hfne htr] at hval
  rw [zipBulk_getD b outs j hj, hget, if_pos (halltr tk htk)] at hval
  have hcount : (b.take j).countP isTranslatable = j := by
    rw [List.countP_eq_length.mpr
      (fun x hx => halltr x (hmemflat x (List.mem_of_mem_take hx)))]
    simp [List.length_take, Nat.min_eq_left (le_of_lt hj)]
  rw [hcount] at hval
  have hjo : j < outs.length := by
    rw [hlen, toTranslateTexts, hfilter, List.length_map]
    exact hj
  refine ⟨outs.getD j "", hval, ?_⟩
  have hmem : outs.getD j "" ∈ outs := by
    rw [List.getD_eq_getElem _ _ hjo]
    exact List.getElem_mem hjo
  exact hne _ hmem

/-- C10 (confirmed): with translation requested but the API key empty,
a catalog with missing leaves gets no translation calls (the outcome is
the same for every provider oracle), still receives its empty-string
placeholders, is still persisted, reports translatedCount 0, and the run
exits with code 0. -/
theorem missingApiKeySkip (tr tr2 : Translator) (src t : JsonObject)
    (locales : List (Option JsonObject))
    (hwf : wfEntries src = true)
    (hmem : some t ∈ locales)
    (hne : (addMissingKeys src t []).2 ≠ []) :
    (processCatalog tr true "" src t).translated = 0 ∧
    (processCatalog tr true "" src t).persisted = true ∧
    (processCatalog tr true "" src t).finalTree = (addMissingKeys src t []).1 ∧
    processCatalog tr2 true "" src t = processCatalog tr true "" src t ∧
    (∀ tk ∈ (addMissingKeys src t []).2,
      JsonValue.getPath
        (.obj (processCatalog tr true "" src t).finalTree) tk.key =
        some (.str "")) ∧
    (mainModel tr true (some src) locales true "").1 = ExitCode.zero := by
  refine ⟨?_, ?_, ?_, ?_, ?_, ?_⟩
  · simp [processCatalog]
  · have hpos : 0 < (addMissingKeys src t []).2.length := List.length_pos.mpr hne
    simp [processCatalog, hpos]
  · simp [processCatalog]
  · simp [processCatalog]
  · intro tk htk
    have hft : (processCatalog tr true "" src t).finalTree =
        (addMissingKeys src t []).1 := by
      simp [processCatalog]
    rw [hft]
    exact placeholder_after_diff src t hwf tk htk
  · rw [mainModel_exit_eq]
    have hpos := totalAddedOf_pos_of_mem src t locales hmem hne
    simp [Nat.pos_iff_ne_zero.mp hpos]

/-- Witness for C10 at a one-leaf source and an empty locale file. -/
theorem missingApiKeySkipWitness :
    (processCatalog trFail true "" [("a", .str "hello")] []).translated = 0 ∧
    (mainModel trFail true (some [("a", .str "hello")]) [some []] true "").1 =
      ExitCode.zero := by
  have h := missingApiKeySkip trFail trX [("a", .str "hello")] [] [some []]
    (by decide) (List.mem_cons_self _ _)
    (by simp [addMissingKeys, lookupKey, setKey])
  exact ⟨h.1, h.2.2.2.2.2⟩

/-- Counterexample for C5: a source catalog whose one leaf is the empty
string. The first full run (translation on, nonempty key, working
provider) resolves the task to the empty output string, so the second
diff discovers the same leaf again: the second run adds 1, not 0. -/
theorem idempotenceCx :
    (addMissingKeys [("a", JsonValue.str "")]
      ((processCatalog trX true "k" [("a", JsonValue.str "")] []).finalTree)
      []).2.length = 1 := by
  simp [processCatalog, addMissingKeys, lookupKey, setKey, translateAndApply,
    chunk20, applyBatches, processBatch, applyBatch, batchVals, trX,
    isTranslatable, jsTrim, isJsWhitespace, perItemVals, toTranslateTexts,
    writePath]

/-- C5 (amended): running the sync a second time with translation
disabled yields zero additions provided the first run resolved every
task to a nonempty string; concretely it holds when the source texts of
all discovered tasks trim to nonempty, translation actually ran (key
nonempty) and the provider succeeded with equal-length, nonempty
outputs. Without these provisos a task resolved to the empty string (an
empty or whitespace-only source text, or an empty provider output) is
added again on the second run. -/
theorem idempotenceAmended (tr : Translator) (key : String)
    (src T : JsonObject)
    (hwf : wfEntries src = true)
    (hkey : key ≠ "")
    (hgood : goodProvider tr)
    (hblank : ∀ tk ∈ (addMissingKeys src T []).2, isTranslatable tk = true) :
    (addMissingKeys src (processCatalog tr true key src T).finalTree []).2 = [] := by
  have hpw := addMissingKeys_tasks_pairwise src T [] hwf
  have hplace := placeholder_after_diff src T hwf
  have hclear : ∀ x ∈ (addMissingKeys src T []).2,
      pathClear (addMissingKeys src T []).1 x.key = true := by
    intro x hx
    have hxne : x.key ≠ [] := by
      obtain ⟨k, q, hk, _⟩ := addMissingKeys_task_shape src T [] x hx
      rw [hk]
      simp
    exact pathClear_of_getPath x.key _ _ hxne (hplace x hx)
  have hT2 : ∀ p s, JsonValue.getPath (.obj src) p = some (.str s) →
      ∃ v, JsonValue.getPath
        (.obj (processCatalog tr true key src T).finalTree) p =
        some (.str v) ∧ v ≠ "" := by
    intro p s hsrc
    by_cases hfill : filledAt T p = true
    · obtain ⟨t0, hg0, ht0⟩ := (filledAt_eq_true_iff T p).mp hfill
      have ht0ne : t0 ≠ "" := by
        intro hc
        subst hc
        exact absurd ht0 (by decide)
      have h1 : JsonValue.getPath (.obj (addMissingKeys src T []).1) p =
          some (.str t0) := by
        rw [getPath_addMissingKeys_str src T [] hwf p s hsrc, hfill,
          if_pos rfl, hg0]
      have hnot : ∀ tk ∈ (addMissingKeys src T []).2, tk.key ≠ p := by
        intro tk htk hkeq
        obtain ⟨pp, ss⟩ := tk
        obtain ⟨q, hpq, _, hfill2⟩ :=
          (mem_addMissingKeys_iff src T [] hwf pp ss).mp htk
        simp only [List.nil_append] at hpq
        subst hpq
        have hppp : pp = p := hkeq
        subst hppp
        rw [hfill] at hfill2
        exact Bool.noConfusion hfill2
      by_cases hlen : 0 < (addMissingKeys src T []).2.length
      · have hT2eq : (processCatalog tr true key src T).finalTree =
            (translateAndApply tr (addMissingKeys src T []).2
              (addMissingKeys src T []).1).1 := by
          simp [processCatalog, hlen, bne_iff_ne.mpr hkey]
        rw [hT2eq, translateAndApply]
        rw [getPath_applyBatches_diverge (chunk20 _) tr _ p ?_]
        · exact ⟨t0, h1, ht0ne⟩
        · intro x hx
          rw [chunk20_join] at hx
          obtain ⟨px, sx⟩ := x
          obtain ⟨q, hpq, hsrcx, _⟩ :=
            (mem_addMissingKeys_iff src T [] hwf px sx).mp hx
          simp only [List.nil_append] at hpq
          subst hpq
          refine divergeB_of_str_paths p src px s sx hsrc hsrcx ?_
          intro hc
          exact hnot ⟨px, sx⟩ hx (show px = p from hc.symm)
      · have hT2eq : (processCatalog tr true key src T).finalTree =
            (addMissingKeys src T []).1 := by
          simp [processCatalog, hlen]
        rw [hT2eq]
        exact ⟨t0, h1, ht0ne⟩
    · have hfillf : filledAt T p = false := by
        revert hfill
        cases filledAt T p <;> simp
      have htask : (⟨p, s⟩ : TranslationKey) ∈ (addMissingKeys src T []).2 :=
        (mem_addMissingKeys_iff src T [] hwf p s).mpr
          ⟨p, by simp, hsrc, hfillf⟩
      have hlen : 0 < (addMissingKeys src T []).2.length :=
        List.length_pos.mpr (List.ne_nil_of_mem htask)
      have hT2eq : (processCatalog tr true key src T).finalTree =
          (translateAndApply tr (addMissingKeys src T []).2
            (addMissingKeys src T []).1).1 := by
        simp [processCatalog, hlen, bne_iff_ne.mpr hkey]
      rw [hT2eq]
      exact translateAndApply_good_value tr _ _ hpw hclear hgood hblank
        ⟨p, s⟩ htask
  rw [List.eq_nil_iff_forall_not_mem]
  intro tk htk
  obtain ⟨pp, ss⟩ := tk
  obtain ⟨q, hpq, hsrc2, hfill2⟩ :=
    (mem_addMissingKeys_iff src _ [] hwf pp ss).mp htk
  simp only [List.nil_append] at hpq
  subst hpq
  obtain ⟨v, hv, hvne⟩ := hT2 pp ss hsrc2
  have hvpos : 0 < v.length := by
    rcases Nat.eq_zero_or_pos v.length with hz | hp2
    · exfalso
      apply hvne
      apply String.ext
      show v.data = ("" : String).data
      have hd : v.data = [] := List.length_eq_zero.mp hz
      rw [hd]
    · exact hp2
  have hfilled : filledAt (processCatalog tr true key src T).finalTree pp = true :=
    (filledAt_eq_true_iff _ pp).mpr ⟨v, hv, hvpos⟩
  rw [hfill2] at hfilled
  exact Bool.noConfusion hfilled

/-- Witness for C5 amended: a one-leaf run under the constant provider
leaves nothing for the second diff. -/
theorem idempotenceAmendedWitness :
    (addMissingKeys [("a", JsonValue.str "hello")]
      ((processCatalog trX true "k" [("a", JsonValue.str "hello")] []).finalTree)
      []).2 = [] := by
  refine idempotenceAmended trX "k" [("a", JsonValue.str "hello")] []
    (by decide) (by decide) trX_good ?_
  intro tk htk
  simp [addMissingKeys, lookupKey, setKey] at htk
  subst htk
  decide
